import Mathlib

/-!
# Word counting (`hw-intro/words/main.c`)

A shallow embedding of the tokenizer/counter pair `num_words`, `count_words` and of the
ranking comparator `wordcount_less`, together with the properties stated about them.

## Conventions of the embedding

* A byte is a natural number (the value `fgetc` returns when it is not `EOF`); the program never
  calls `setlocale`, so `isalpha`/`tolower` are those of the "C" locale.
* A stream (`FILE *`) is the list of bytes that have not been read yet.  `fgetc` on a non-empty
  list returns its head and advances; on the empty list it returns `EOF` (and keeps doing so).
* Every loop head of the source is reached right after a call of `fgetc`.  The loop functions
  below therefore take the stream *positioned before the byte held in `ch`*: the pattern
  `ch :: infile` is "`fgetc` returned `ch`, `infile` is what is left", the pattern `[]` is
  "`fgetc` returned `EOF`".  This makes every loop structurally recursive on the stream, hence
  total.
* The `int len` of `num_words` is a 32-bit two's complement integer: `len++` wraps around at
  `2^31` (`wrap_int`), which is what the compiled program does on a run of `2^31` letters.  The
  `int len` of `count_words` never exceeds `MAX_WORD_LEN` and is a natural number.  The word
  counter of `num_words` is a natural number: it never exceeds the number of bytes read
  (`num_words_le_length`), so it does not overflow on a stream of fewer than `2^31` bytes, which
  is the bound the theorems about the value of `num_words` carry.
* `malloc` is taken to succeed; `buff` is a memory region addressed by index (`Nat → Nat`) whose
  initial contents `buff0` are arbitrary.
* `word_count.h` is not part of the sources: `add_word` is a parameter of `count_words`, and
  where a ledger or a ranking is needed `WordCount`, `add_word` and `wordcount_sort` are modelled
  from the specification.
* Of `main`, the two processing loops over the opened streams (count mode, frequency mode) and
  the closing loop are embedded; option parsing and `fopen` are not.
-/

namespace Words

/-! ## C library functions used by the source -/

/-- The function `isalpha` of `<ctype.h>` in the "C" locale: the 52 ASCII letters. -/
def isalpha (ch : Nat) : Bool := (65 ≤ ch && ch ≤ 90) || (97 ≤ ch && ch ≤ 122)

/-- The function `tolower` of `<ctype.h>` in the "C" locale. -/
def tolower (ch : Nat) : Nat := if 65 ≤ ch ∧ ch ≤ 90 then ch + 32 else ch

/-- The function `toupper` of `<ctype.h>` in the "C" locale (used to state case-folding
invariance). -/
def toupper (ch : Nat) : Nat := if 97 ≤ ch ∧ ch ≤ 122 then ch - 32 else ch

/-- The call `strncpy(dst, src, n)`: the `n` bytes written to `dst`, namely the bytes of `src` up
to its first NUL (at most `n` of them), padded with NUL bytes up to `n`. -/
def strncpy (src : Nat → Nat) (n : Nat) : List Nat :=
  let s := ((List.range n).map src).takeWhile (fun b => b != 0)
  s ++ List.replicate (n - s.length) 0

/-- The C string stored in a byte array: the bytes before the first NUL. -/
def cstring (mem : List Nat) : List Nat := mem.takeWhile (fun b => b != 0)

/-- The function `strcmp` of `<string.h>` on two C strings given by their bytes before the
terminating NUL: the difference of the first pair of bytes that differ (the terminator reads as
`0`), or `0`. -/
def strcmp : List Nat → List Nat → Int
  | [], [] => 0
  | [], b :: _ => 0 - (b : Int)
  | a :: _, [] => (a : Int)
  | a :: s1, b :: s2 => if a = b then strcmp s1 s2 else (a : Int) - (b : Int)

/-- The value a C `int` (32 bits, two's complement) holds after a computation whose mathematical
result is `x`: the representative of `x` modulo `2^32` in the range `-2^31 .. 2^31 - 1`. -/
def wrap_int (x : Int) : Int := (x + 2147483648) % 4294967296 - 2147483648

/-! ## `main.c` -/

/-- Line 41: `#define MAX_WORD_LEN 64`. -/
def MAX_WORD_LEN : Nat := 64

mutual
/-- Lines 53-66, at the head of the outer loop `while (ch >= 0)` of `num_words`.
* `[]`: `ch` is `EOF`, the loop ends and line 72 returns `num_words` (line 68 does not fire,
  `ch` being `EOF`).
* `ch :: infile`, `isalpha(ch)`: line 55 sets `len = 0`, the inner loop test of line 56 holds,
  lines 57-58 read the next byte and increment `len`: inner loop head.
* `ch :: infile`, otherwise: line 65 reads the next byte: outer loop head. -/
def num_words_outer : List Nat → Nat → Nat
  | [], num_words => num_words
  | ch :: infile, num_words =>
    if isalpha ch then num_words_inner infile (wrap_int (0 + 1)) num_words
    else num_words_outer infile num_words
/-- Lines 56-65, at the head of the inner loop `while (ch >= 0 && isalpha(ch))` of `num_words`.
* `[]`: `ch` is `EOF`, the inner loop ends, lines 60-62 count the run when `len > 1`, line 65
  reads `EOF` again, the outer loop ends and line 72 returns.
* `ch :: infile`, `isalpha(ch)`: lines 57-58: next byte, `len++` (on an `int`).
* `ch :: infile`, otherwise: the run is over, lines 60-62 count it when `len > 1`, line 65 reads
  the byte after the separator: outer loop head. -/
def num_words_inner : List Nat → Int → Nat → Nat
  | [], len, num_words => if len > 1 then num_words + 1 else num_words
  | ch :: infile, len, num_words =>
    if isalpha ch then num_words_inner infile (wrap_int (len + 1)) num_words
    else num_words_outer infile (if len > 1 then num_words + 1 else num_words)
end

/-- Lines 49-73: `int num_words(FILE* infile)`; line 50 `num_words = 0`, line 52 first `fgetc`. -/
def num_words (infile : List Nat) : Nat := num_words_outer infile 0

/-- Lines 101-106: the string handed to `add_word`: `strncpy(word, buff, len)` followed by
`word[len] = 0`, read as a C string. -/
def copy_word (buff : Nat → Nat) (len : Nat) : List Nat := cstring (strncpy buff len ++ [0])

/-- Lines 89-112 of `count_words`, at the head of the loop `while (ch != EOF && isalpha(ch))`,
with the current `len`, the buffer `buff` and the ledger `wclist`.  `add_word` is declared in
`word_count.h`, which is not part of the sources: it is a parameter, acting on an abstract ledger
state `σ`.  The result is the returned status and the ledger.
* `[]`: `ch` is `EOF`; lines 100-111 hand the pending word to `add_word` when `len > 1`; the
  `for` increment reads `EOF` again, the `for` ends, line 115 returns `0`.
* `ch :: infile`, `isalpha(ch)`: line 92 returns `1` when `len == MAX_WORD_LEN`; otherwise lines
  95-97 store `tolower(ch)` at `buff[len]`, increment `len` and read the next byte.
* `ch :: infile`, otherwise: the `while` ends, lines 100-111 hand the pending word to `add_word`
  when `len > 1`, the `for` increment reads the next byte and the body restarts with `len = 0`
  (when the `while` is entered with a non-letter, `len` is `0` and nothing is added). -/
def count_words_loop {σ : Type} (add_word : σ → List Nat → σ) :
    List Nat → Nat → (Nat → Nat) → σ → Nat × σ
  | [], len, buff, wclist =>
    (0, if len > 1 then add_word wclist (copy_word buff len) else wclist)
  | ch :: infile, len, buff, wclist =>
    if isalpha ch then
      if len = MAX_WORD_LEN then (1, wclist)
      else count_words_loop add_word infile (len + 1) (Function.update buff len (tolower ch)) wclist
    else
      count_words_loop add_word infile 0 buff
        (if len > 1 then add_word wclist (copy_word buff len) else wclist)

/-- Lines 86-116: `int count_words(WordCount **wclist, FILE *infile)`.  Line 87 allocates `buff`
(contents `buff0`), line 89 reads the first byte, line 90 sets `len = 0`. -/
def count_words {σ : Type} (add_word : σ → List Nat → σ) (wclist : σ) (infile : List Nat)
    (buff0 : Nat → Nat) : Nat × σ :=
  count_words_loop add_word infile 0 buff0 wclist

/-- An `add_word` that only records its argument: the ledger state is the list of the words
passed so far, in call order. -/
def record_call (calls : List (List Nat)) (word : List Nat) : List (List Nat) := calls ++ [word]

/-- The status `count_words` returns on `infile` and the words it passes to `add_word`, in order. -/
def count_words_calls (infile : List Nat) (buff0 : Nat → Nat) : Nat × List (List Nat) :=
  count_words record_call [] infile buff0

/-- Modelled from the spec: the entry type `WordCount` of `word_count.h` (not in the sources), of
which `main.c` uses the fields `word` (a C string, given by its bytes before the NUL) and `count`
(a C `int`). -/
structure WordCount where
  word : List Nat
  count : Int
deriving DecidableEq

/-- Lines 122-135: `static bool wordcount_less(const WordCount *wc1, const WordCount *wc2)`. -/
def wordcount_less (wc1 wc2 : WordCount) : Bool :=
  if wc1.count < wc2.count then true
  else if wc1.count > wc2.count then false
  else
    let cmp := strcmp wc1.word wc2.word
    if cmp < 0 then true else false

/-- Modelled from the spec: `add_word` of `word_count.h` (not in the sources), section 4.3: find
the entry with exactly that word and increment its count, or else insert a new entry with
count 1. -/
def add_word : List WordCount → List Nat → List WordCount
  | [], word => [⟨word, 1⟩]
  | wc :: rest, word =>
    if wc.word = word then ⟨wc.word, wc.count + 1⟩ :: rest
    else wc :: add_word rest word

/-- Insertion step of `wordcount_sort`: put `wc` in front of the first entry it is `less` than. -/
def wordcount_insert (less : WordCount → WordCount → Bool) (wc : WordCount) :
    List WordCount → List WordCount
  | [] => [wc]
  | hd :: tl => if less wc hd then wc :: hd :: tl else hd :: wordcount_insert less wc tl

/-- Modelled from the spec: `wordcount_sort` of `word_count.h` (not in the sources), section 4.4:
a comparison sort of the ledger by the given comparator (here an insertion sort). -/
def wordcount_sort (less : WordCount → WordCount → Bool) : List WordCount → List WordCount
  | [] => []
  | hd :: tl => wordcount_insert less hd (wordcount_sort less tl)

/-! ## Vocabulary of the specification -/

/-- A separator: any byte that is not alphabetic. -/
def is_separator (ch : Nat) : Bool := !isalpha ch

/-- The pieces of a stream between consecutive separators (empty pieces included). -/
def pieces (S : List Nat) : List (List Nat) := S.splitOnP is_separator

/-- The maximal runs of alphabetic bytes of a stream, in order of occurrence: the non-empty
pieces between separators. -/
def maximal_runs (S : List Nat) : List (List Nat) := (pieces S).filter (fun r => !r.isEmpty)

/-- The qualifying words of a stream: its maximal alphabetic runs of length at least 2. -/
def qualifying_runs (S : List Nat) : List (List Nat) :=
  (maximal_runs S).filter (fun r => decide (2 ≤ r.length))

/-- What a scan that stops at the first piece longer than `MAX_WORD_LEN` reports: the status, and
the case-folded pieces of length at least 2 met before stopping. -/
def scan_pieces : List (List Nat) → Nat × List (List Nat)
  | [] => (0, [])
  | r :: rs =>
    if MAX_WORD_LEN < r.length then (1, [])
    else ((scan_pieces rs).1,
      if 2 ≤ r.length then r.map tolower :: (scan_pieces rs).2 else (scan_pieces rs).2)

/-- The bytes of a string literal. -/
def bytes (s : String) : List Nat := s.toList.map Char.toNat

/-- A ledger used to illustrate the ranking: `the:2, cat:1, on:1, at:1`, in insertion order. -/
def sample_ledger : List WordCount :=
  [WordCount.mk (bytes "the") 2, WordCount.mk (bytes "cat") 1, WordCount.mk (bytes "on") 1,
    WordCount.mk (bytes "at") 1]

/-! ## Read failures, the driver `main`, and buffer accesses -/

/-- The value of the macro `EOF` of `<stdio.h>`: a negative `int`, `-1` in the C libraries in
use. -/
def EOF : Int := -1

/-- The value `fgetc` returns once the bytes of a stream are exhausted: `EOF`, both at
end-of-file and when the read failed (the two are told apart only by `feof`/`ferror`, which
`main.c` never calls). -/
def fgetc_at_end : Bool → Int
  | true => EOF
  | false => EOF

/-- Lines 49-73 of `num_words` with the stream's way of ending made explicit: `infile` holds the
bytes the stream delivers and `read_failed` tells whether it then ends by a read failure rather
than by end-of-file.  The loops end with `ch` the value of the last `fgetc`; line 68 returns `ch`
when it is not `EOF`, line 72 returns the count otherwise. -/
def num_words_result (infile : List Nat) (read_failed : Bool) : Int :=
  let ch := fgetc_at_end read_failed
  if ch ≠ EOF then ch else (num_words infile : Int)

/-- Lines 210-213 of `main`, count mode: `total_words += num_words(infiles[i])` over the input
streams, from `total_words = 0` (line 153). -/
def main_count_total (infiles : List (List Nat)) : Nat :=
  infiles.foldl (fun total_words infile => total_words + num_words infile) 0

/-- Line 214 of `main`: what `printf("The total number of words is: %i\n", total_words)`
prints. -/
def main_count_output (infiles : List (List Nat)) : String :=
  "The total number of words is: " ++ toString (main_count_total infiles) ++ "\n"

/-- Lines 216-218 of `main`, frequency mode: `count_words(&word_counts, infiles[i])` over the
input streams, on one ledger; the value `count_words` returns is not looked at. -/
def main_frequency_ledger {σ : Type} (add_word : σ → List Nat → σ) (buff0 : Nat → Nat) :
    List (List Nat) → σ → σ
  | [], word_counts => word_counts
  | infile :: rest, word_counts =>
    main_frequency_ledger add_word buff0 rest (count_words add_word word_counts infile buff0).2

/-- Lines 226-234 of `main`: the streams are closed in turn, `close_results` being what the
successive calls of `fclose` return; the first non-zero result is the exit status, and the exit
status is 0 when every stream closes. -/
def main_close : List Int → Int
  | [] => 0
  | err :: rest => if err ≠ 0 then err else main_close rest

/-- Lines 190 and 215-234 of `main`, frequency mode, once the streams are open: the ranked ledger
that is printed and the exit status.  The ledger starts empty (`init_words`, spec section 3);
`add_word` and `wordcount_sort` are the models of the absent `word_count.h` functions. -/
def main_frequency (infiles : List (List Nat)) (buff0 : Nat → Nat) (close_results : List Int) :
    List WordCount × Int :=
  (wordcount_sort wordcount_less (main_frequency_ledger add_word buff0 infiles []),
   main_close close_results)

/-- An access of `count_words` to its transient buffer `buff`, or the start of a new run. -/
inductive BuffAccess where
  /-- Line 90: the body of the `for` starts, `len = 0`: a new run begins. -/
  | new_run : BuffAccess
  /-- Line 95: `buff[index] = tolower(ch)`. -/
  | write (index : Nat) : BuffAccess
  /-- Line 105: `strncpy(word, buff, n)` reads (at most) the indices below `n`. -/
  | copy (n : Nat) : BuffAccess
deriving DecidableEq

/-- The `for` of line 89 runs its body when the byte just read is not `EOF`. -/
def body_start : List Nat → List BuffAccess
  | [] => []
  | _ :: _ => [BuffAccess.new_run]

/-- Lines 100-111: the buffer is read only when `len > 1`. -/
def copy_access (len : Nat) : List BuffAccess := if len > 1 then [BuffAccess.copy len] else []

/-- The loop of `count_words` as in `count_words_loop`, clause by clause, returning in addition
the log of its buffer accesses in program order. -/
def count_words_logged_loop {σ : Type} (add_word : σ → List Nat → σ) :
    List Nat → Nat → (Nat → Nat) → σ → (Nat × σ) × List BuffAccess
  | [], len, buff, wclist =>
    ((0, if len > 1 then add_word wclist (copy_word buff len) else wclist), copy_access len)
  | ch :: infile, len, buff, wclist =>
    if isalpha ch then
      if len = MAX_WORD_LEN then ((1, wclist), [])
      else
        let r := count_words_logged_loop add_word infile (len + 1)
          (Function.update buff len (tolower ch)) wclist
        (r.1, BuffAccess.write len :: r.2)
    else
      let r := count_words_logged_loop add_word infile 0 buff
        (if len > 1 then add_word wclist (copy_word buff len) else wclist)
      (r.1, copy_access len ++ body_start infile ++ r.2)

/-- The function `count_words` with the log of its buffer accesses. -/
def count_words_logged {σ : Type} (add_word : σ → List Nat → σ) (wclist : σ)
    (infile : List Nat) (buff0 : Nat → Nat) : (Nat × σ) × List BuffAccess :=
  let r := count_words_logged_loop add_word infile 0 buff0 wclist
  (r.1, body_start infile ++ r.2)

/-- The buffer accesses of `count_words` on a stream. -/
def buffer_accesses (infile : List Nat) (buff0 : Nat → Nat) : List BuffAccess :=
  (count_words_logged record_call [] infile buff0).2

/-- A log of buffer accesses respects the buffer: with `written` the number of bytes written
since the current run began, every write is at an index below `MAX_WORD_LEN`, and every copy
reads no more than `written` bytes, `written` being at most `MAX_WORD_LEN`. -/
def accesses_in_bounds : List BuffAccess → Nat → Bool
  | [], _ => true
  | BuffAccess.new_run :: log, _ => accesses_in_bounds log 0
  | BuffAccess.write index :: log, written =>
    decide (index < MAX_WORD_LEN) && accesses_in_bounds log (written + 1)
  | BuffAccess.copy n :: log, written =>
    decide (n ≤ written) && decide (written ≤ MAX_WORD_LEN) && accesses_in_bounds log written

/-- The stream of the first end-to-end scenario. -/
def scenario_one : List Nat := bytes "the cat sat on the mat"

/-- The stream of the second end-to-end scenario. -/
def scenario_two : List Nat := bytes "a I to be"

/-- The two streams of the third end-to-end scenario, in order. -/
def scenario_three : List (List Nat) := [bytes "Hello world", bytes "hello WORLD world"]

/-- The entries a sequence of `add_word` calls stands for: each distinct word with the number of
times it was passed. -/
def entries_of_calls (calls : List (List Nat)) : List WordCount :=
  calls.dedup.map (fun w => WordCount.mk w (calls.count w))

/-! ## Basic facts about the library functions -/

theorem isalpha_iff (c : Nat) : isalpha c = true ↔ (65 ≤ c ∧ c ≤ 90) ∨ (97 ≤ c ∧ c ≤ 122) := by
  simp [isalpha]

theorem isalpha_toupper (c : Nat) : isalpha (toupper c) = isalpha c := by
  rw [Bool.eq_iff_iff, isalpha_iff, isalpha_iff]
  unfold toupper
  split_ifs <;> omega

theorem tolower_toupper (c : Nat) : tolower (toupper c) = tolower c := by
  unfold tolower toupper
  split_ifs <;> omega

theorem tolower_tolower (c : Nat) : tolower (tolower c) = tolower c := by
  unfold tolower
  split_ifs <;> omega

theorem tolower_ne_zero (c : Nat) (h : isalpha c = true) : tolower c ≠ 0 := by
  rw [isalpha_iff] at h
  unfold tolower
  split_ifs <;> omega

theorem tolower_lowercase (c : Nat) (h : isalpha c = true) :
    97 ≤ tolower c ∧ tolower c ≤ 122 := by
  rw [isalpha_iff] at h
  unfold tolower
  split_ifs <;> omega

theorem pieces_nil : pieces [] = [[]] := rfl

theorem pieces_cons (c : Nat) (S : List Nat) :
    pieces (c :: S) =
      if isalpha c then (pieces S).modifyHead (List.cons c) else [] :: pieces S := by
  unfold pieces
  rw [List.splitOnP_cons]
  cases h : isalpha c <;> simp [is_separator, h]

theorem pieces_ne_nil (S : List Nat) : pieces S ≠ [] := List.splitOnP_ne_nil _ _

/-- Every byte of every piece is alphabetic. -/
theorem pieces_alpha (S : List Nat) : ∀ r ∈ pieces S, ∀ c ∈ r, isalpha c = true := by
  induction S with
  | nil => simp [pieces_nil]
  | cons a S ih =>
    rw [pieces_cons]
    by_cases h : isalpha a = true
    · rw [if_pos h]
      cases hp : pieces S with
      | nil => exact absurd hp (pieces_ne_nil S)
      | cons r0 rs =>
        rw [hp] at ih
        intro r hr c hc
        simp only [List.modifyHead, List.mem_cons] at hr
        rcases hr with rfl | hr
        · rcases List.mem_cons.mp hc with rfl | hc
          · exact h
          · exact ih r0 (List.mem_cons_self _ _) c hc
        · exact ih r (List.mem_cons_of_mem _ hr) c hc
    · rw [if_neg h]
      intro r hr c hc
      rcases List.mem_cons.mp hr with rfl | hr
      · simp at hc
      · exact ih r hr c hc

/-- The stream is its pieces interleaved with its separators, in order: together with
`pieces_alpha`, the non-empty pieces are exactly the maximal alphabetic runs. -/
theorem pieces_interleave (S : List Nat) :
    List.flatten (List.zipWith (fun r s => r ++ s) (pieces S)
      (((S.filter is_separator).map fun x => [x]) ++ [[]])) = S :=
  List.splitOnP_spec is_separator S

theorem qualifying_runs_eq (S : List Nat) :
    qualifying_runs S = (pieces S).filter (fun r => decide (2 ≤ r.length)) := by
  unfold qualifying_runs maximal_runs
  rw [List.filter_filter]
  congr 1
  funext r
  cases r with
  | nil => simp
  | cons a t => simp

/-! ## `num_words` counts the runs whose `int` length exceeds 1 -/

theorem wrap_int_of_lt (n : Nat) (h : n < 2147483648) : wrap_int (n : Int) = (n : Int) := by
  unfold wrap_int
  omega

theorem wrap_int_succ (k : Nat) :
    wrap_int (wrap_int (k : Int) + 1) = wrap_int ((k + 1 : Nat) : Int) := by
  unfold wrap_int
  push_cast
  omega

theorem wrap_int_one : wrap_int (0 + 1) = wrap_int ((1 : Nat) : Int) := rfl

/-- Filtering on a property of the length is blind to a change of the head that keeps its
length. -/
theorem filter_length_modifyHead (p : Nat → Bool) (f g : List Nat → List Nat)
    (L : List (List Nat)) (h : ∀ r, (f r).length = (g r).length) :
    ((L.modifyHead f).filter (fun r => p r.length)).length =
      ((L.modifyHead g).filter (fun r => p r.length)).length := by
  cases L with
  | nil => rfl
  | cons r0 rs =>
    simp only [List.modifyHead, List.filter_cons, h r0]
    split_ifs <;> simp

/-- What the two loops of `num_words` compute: a piece is counted when its length, as the `int`
that `len` holds at the end of the run, exceeds 1. -/
theorem num_words_loops (S : List Nat) :
    (∀ n, num_words_outer S n =
      n + ((pieces S).filter (fun r => decide (1 < wrap_int (r.length : Int)))).length) ∧
    (∀ (k : Nat) n, num_words_inner S (wrap_int (k : Int)) n =
      n + (((pieces S).modifyHead (fun r => List.replicate k 0 ++ r)).filter
        (fun r => decide (1 < wrap_int (r.length : Int)))).length) := by
  induction S with
  | nil =>
    constructor
    · intro n; simp [num_words_outer, pieces_nil, wrap_int]
    · intro k n
      simp only [num_words_inner, pieces_nil, List.modifyHead, List.append_nil,
        List.filter_cons, List.length_replicate, gt_iff_lt]
      by_cases h : 1 < wrap_int (k : Int)
      · simp [h]
      · simp [h]
  | cons c S ih =>
    obtain ⟨ihO, ihI⟩ := ih
    constructor
    · intro n
      rw [num_words_outer, pieces_cons]
      by_cases hc : isalpha c = true
      · rw [if_pos hc, if_pos hc, wrap_int_one, ihI]
        congr 1
        apply filter_length_modifyHead (fun m => decide (1 < wrap_int (m : Int)))
        intro r; simp
      · rw [if_neg hc, if_neg hc, ihO]
        simp [List.filter_cons, wrap_int]
    · intro k n
      rw [num_words_inner, pieces_cons]
      by_cases hc : isalpha c = true
      · rw [if_pos hc, if_pos hc, wrap_int_succ, ihI, List.modifyHead_modifyHead]
        congr 1
        apply filter_length_modifyHead (fun m => decide (1 < wrap_int (m : Int)))
        intro r; simp; omega
      · rw [if_neg hc, if_neg hc, ihO]
        simp only [List.modifyHead, List.append_nil, List.filter_cons, List.length_replicate,
          gt_iff_lt]
        by_cases h : 1 < wrap_int (k : Int)
        · simp [h]; omega
        · simp [h]

/-- When every piece is shorter than `2^31`, `len` never wraps and `num_words` counts the pieces
of length at least 2. -/
theorem num_words_of_short (S : List Nat) (h : ∀ r ∈ pieces S, r.length < 2147483648) :
    num_words S = ((pieces S).filter (fun r => decide (2 ≤ r.length))).length := by
  have hf : (pieces S).filter (fun r => decide (1 < wrap_int (r.length : Int))) =
      (pieces S).filter (fun r => decide (2 ≤ r.length)) := by
    apply List.filter_congr
    intro r hr
    rw [wrap_int_of_lt r.length (h r hr)]
    by_cases h2 : 2 ≤ r.length
    · have : (1 : Int) < (r.length : Int) := by omega
      simp [h2, this]
    · have : ¬ (1 : Int) < (r.length : Int) := by omega
      simp [h2, this]
  rw [num_words, (num_words_loops S).1 0, Nat.zero_add, hf]

/-- No piece is longer than the stream. -/
theorem pieces_length_le_length (S : List Nat) : ∀ r ∈ pieces S, r.length ≤ S.length := by
  induction S with
  | nil => simp [pieces_nil]
  | cons c S ih =>
    rw [pieces_cons]
    by_cases hc : isalpha c = true
    · rw [if_pos hc]
      cases hp : pieces S with
      | nil => exact absurd hp (pieces_ne_nil S)
      | cons r0 rs =>
        rw [hp] at ih
        intro r hr
        simp only [List.modifyHead, List.mem_cons] at hr
        rcases hr with rfl | hr
        · have := ih r0 (List.mem_cons_self _ _)
          simp only [List.length_cons]; omega
        · have := ih r (List.mem_cons_of_mem _ hr)
          simp only [List.length_cons]; omega
    · rw [if_neg hc]
      intro r hr
      rcases List.mem_cons.mp hr with rfl | hr
      · simp
      · have := ih r hr
        simp only [List.length_cons]; omega

/-- A stream of letters `a` is a single piece. -/
theorem pieces_replicate_letter (n : Nat) :
    pieces (List.replicate n 97) = [List.replicate n 97] := by
  unfold pieces
  apply List.splitOnP_eq_single
  intro x hx
  rw [List.eq_of_mem_replicate hx]
  decide

/-- On a stream of `n` letters, `num_words` returns 1 or 0 according to whether `n`, as an
`int`, exceeds 1. -/
theorem num_words_replicate_letter (n : Nat) :
    num_words (List.replicate n 97) = if 1 < wrap_int (n : Int) then 1 else 0 := by
  rw [num_words, (num_words_loops _).1 0, pieces_replicate_letter, List.filter_cons,
    List.length_replicate]
  by_cases h : 1 < wrap_int (n : Int)
  · simp [h]
  · simp [h]

theorem qualifying_runs_replicate_letter (n : Nat) (h : 2 ≤ n) :
    qualifying_runs (List.replicate n 97) = [List.replicate n 97] := by
  rw [qualifying_runs_eq, pieces_replicate_letter, List.filter_cons, List.length_replicate]
  simp [h]

/-- C1, as stated, fails: the stream of `2^31` letters `a` is one maximal alphabetic run of
length at least 2, yet `num_words` returns 0 on it, the `int len` having wrapped around to
`-2^31` when the run ends. -/
theorem num_words_long_run_counterexample :
    num_words (List.replicate 2147483648 97) = 0 ∧
    (qualifying_runs (List.replicate 2147483648 97)).length = 1 ∧
    num_words (List.replicate 2147483648 97) ≠
      (qualifying_runs (List.replicate 2147483648 97)).length := by
  have h1 : num_words (List.replicate 2147483648 97) = 0 := by
    rw [num_words_replicate_letter]
    decide
  have h2 : (qualifying_runs (List.replicate 2147483648 97)).length = 1 := by
    rw [qualifying_runs_replicate_letter _ (by decide)]
    rfl
  refine ⟨h1, h2, ?_⟩
  rw [h1, h2]
  decide

/-- C1, amended: for every finite byte stream `S` of fewer than `2^31` bytes, `num_words S` is
the number of maximal runs of ASCII alphabetic bytes of `S` whose length is at least 2
(non-alphabetic bytes only separate runs, and a run of length 1 contributes nothing). -/
theorem num_words_eq_qualifying_runs (S : List Nat) (h : S.length < 2147483648) :
    num_words S = (qualifying_runs S).length := by
  rw [qualifying_runs_eq]
  exact num_words_of_short S
    (fun r hr => Nat.lt_of_le_of_lt (pieces_length_le_length S r hr) h)

/-- The stream `ab c  de,f gh` has three qualifying runs. -/
theorem num_words_eq_qualifying_runs_witness :
    (bytes "ab c  de,f gh").length < 2147483648 ∧
    num_words (bytes "ab c  de,f gh") = (qualifying_runs (bytes "ab c  de,f gh")).length ∧
    qualifying_runs (bytes "ab c  de,f gh") = [bytes "ab", bytes "de", bytes "gh"] :=
  ⟨by decide, num_words_eq_qualifying_runs (bytes "ab c  de,f gh") (by decide), by decide⟩

/-- The count never exceeds the number of bytes of the stream, so that the word counter of
`num_words` does not overflow on a stream of fewer than `2^31` bytes. -/
theorem num_words_le_length (S : List Nat) : num_words S ≤ S.length := by
  have h : (∀ n, num_words_outer S n ≤ n + S.length) ∧
      (∀ len n, num_words_inner S len n ≤ n + S.length + 1) := by
    induction S with
    | nil =>
      constructor
      · intro n; simp [num_words_outer]
      · intro len n
        rw [num_words_inner]
        split_ifs <;> simp
    | cons c S ih =>
      constructor
      · intro n
        rw [num_words_outer]
        split_ifs
        · have := ih.2 (wrap_int (0 + 1)) n
          simp only [List.length_cons]; omega
        · have := ih.1 n
          simp only [List.length_cons]; omega
      · intro len n
        rw [num_words_inner]
        split_ifs
        · have := ih.2 (wrap_int (len + 1)) n
          simp only [List.length_cons]; omega
        · have := ih.1 (n + 1)
          simp only [List.length_cons]; omega
        · have := ih.1 n
          simp only [List.length_cons]; omega
  simpa [num_words] using h.1 0

/-! ## `count_words` scans the pieces of the stream -/

theorem copy_word_eq (buff : Nat → Nat) (len : Nat) (h : ∀ i, i < len → buff i ≠ 0) :
    copy_word buff len = (List.range len).map buff := by
  have hall : ∀ x ∈ (List.range len).map buff, (x != 0) = true := by
    intro x hx
    obtain ⟨i, hi, rfl⟩ := List.mem_map.mp hx
    simpa using h i (List.mem_range.mp hi)
  have htw : ((List.range len).map buff).takeWhile (fun b => b != 0) = (List.range len).map buff :=
    List.takeWhile_eq_self_iff.mpr hall
  unfold copy_word strncpy cstring
  simp only [htw, List.length_map, List.length_range, Nat.sub_self, List.replicate_zero,
    List.append_nil]
  rw [List.takeWhile_append_of_pos hall]
  simp

theorem map_update_range (buff : Nat → Nat) (len v : Nat) :
    (List.range (len + 1)).map (Function.update buff len v) = (List.range len).map buff ++ [v] := by
  rw [List.range_succ, List.map_append]
  congr 1
  · apply List.map_congr_left
    intro i hi
    have : i ≠ len := Nat.ne_of_lt (List.mem_range.mp hi)
    simp [Function.update, this]
  · simp

theorem scan_pieces_congr_head (a b : List Nat) (rs : List (List Nat))
    (h : a.map tolower = b.map tolower) : scan_pieces (a :: rs) = scan_pieces (b :: rs) := by
  have hl : a.length = b.length := by
    have := congrArg List.length h
    simpa using this
  simp only [scan_pieces, hl, h]

theorem scan_pieces_cons_le (r : List Nat) (rs : List (List Nat)) (h : r.length ≤ MAX_WORD_LEN) :
    scan_pieces (r :: rs) = ((scan_pieces rs).1,
      if 2 ≤ r.length then r.map tolower :: (scan_pieces rs).2 else (scan_pieces rs).2) := by
  rw [scan_pieces, if_neg (Nat.not_lt.mpr h)]

theorem scan_pieces_cons_gt (r : List Nat) (rs : List (List Nat)) (h : MAX_WORD_LEN < r.length) :
    scan_pieces (r :: rs) = (1, []) := by
  rw [scan_pieces, if_pos h]

/-- The buffer prefix `buff[0..len)` at a loop head: it is what `copy_word` yields, and it is
already case-folded. -/
theorem pending_word (len : Nat) (buff : Nat → Nat)
    (hbuff : ∀ i, i < len → buff i ≠ 0 ∧ tolower (buff i) = buff i) :
    ∃ p : List Nat, p = (List.range len).map buff ∧ p.length = len ∧ p.map tolower = p ∧
      copy_word buff len = p := by
  refine ⟨_, rfl, by simp, ?_, copy_word_eq buff len (fun i hi => (hbuff i hi).1)⟩
  rw [List.map_map]
  apply List.map_congr_left
  intro i hi
  exact (hbuff i (List.mem_range.mp hi)).2

theorem count_words_loop_eq {σ : Type} (add : σ → List Nat → σ) (S : List Nat) :
    ∀ (len : Nat) (buff : Nat → Nat) (wc : σ), len ≤ MAX_WORD_LEN →
      (∀ i, i < len → buff i ≠ 0 ∧ tolower (buff i) = buff i) →
      count_words_loop add S len buff wc =
        ((scan_pieces ((pieces S).modifyHead (fun r => (List.range len).map buff ++ r))).1,
         (scan_pieces ((pieces S).modifyHead (fun r => (List.range len).map buff ++ r))).2.foldl
           add wc) := by
  induction S with
  | nil =>
    intro len buff wc hlen hbuff
    obtain ⟨p, hp, hplen, hlow, hcw⟩ := pending_word len buff hbuff
    rw [count_words_loop, pieces_nil, ← hp, hcw]
    simp only [List.modifyHead, List.append_nil]
    rw [scan_pieces_cons_le p [] (by omega), hplen, hlow]
    by_cases h : len > 1
    · have h2 : 2 ≤ len := h
      simp [h, h2, scan_pieces]
    · have h2 : ¬ 2 ≤ len := by omega
      simp [h, h2, scan_pieces]
  | cons c S ih =>
    intro len buff wc hlen hbuff
    rw [count_words_loop, pieces_cons]
    by_cases hc : isalpha c = true
    · rw [if_pos hc, if_pos hc]
      cases hp : pieces S with
      | nil => exact absurd hp (pieces_ne_nil S)
      | cons r0 rs =>
        by_cases hfull : len = MAX_WORD_LEN
        · rw [if_pos hfull]
          have hover : MAX_WORD_LEN < ((List.range len).map buff ++ c :: r0).length := by
            simp; omega
          simp only [List.modifyHead]
          rw [scan_pieces_cons_gt _ _ hover]
          rfl
        · rw [if_neg hfull]
          have hlen2 : len + 1 ≤ MAX_WORD_LEN := by omega
          have hbuff2 : ∀ i, i < len + 1 →
              Function.update buff len (tolower c) i ≠ 0 ∧
              tolower (Function.update buff len (tolower c) i) =
                Function.update buff len (tolower c) i := by
            intro i hi
            by_cases hil : i = len
            · subst hil
              simp only [Function.update_same]
              exact ⟨tolower_ne_zero c hc, tolower_tolower c⟩
            · have hi2 : i < len := by omega
              simp only [Function.update_noteq hil]
              exact hbuff i hi2
          rw [ih (len + 1) _ wc hlen2 hbuff2, hp, map_update_range]
          have hhead : scan_pieces ((((List.range len).map buff ++ [tolower c]) ++ r0) :: rs) =
              scan_pieces (((List.range len).map buff ++ c :: r0) :: rs) := by
            apply scan_pieces_congr_head
            simp [tolower_tolower]
          simp only [List.modifyHead, hhead]
    · rw [if_neg hc, if_neg hc]
      obtain ⟨p, hp, hplen, hlow, hcw⟩ := pending_word len buff hbuff
      have hid : (pieces S).modifyHead (fun r => (List.range 0).map buff ++ r) = pieces S := by
        cases pieces S <;> simp [List.modifyHead]
      rw [ih 0 buff _ (Nat.zero_le _) (fun i hi => absurd hi (Nat.not_lt_zero i)), hid, ← hp, hcw]
      simp only [List.modifyHead, List.append_nil]
      rw [scan_pieces_cons_le p _ (by omega), hplen, hlow]
      by_cases h : len > 1
      · have h2 : 2 ≤ len := h
        simp [h, h2]
      · have h2 : ¬ 2 ≤ len := by omega
        simp [h, h2]

/-- The function `count_words` returns the status of the scan of the pieces of the stream and has
passed the words of that scan to `add_word`, in order. -/
theorem count_words_eq_scan {σ : Type} (add : σ → List Nat → σ) (wc : σ) (S : List Nat)
    (buff0 : Nat → Nat) :
    count_words add wc S buff0 =
      ((scan_pieces (pieces S)).1, (scan_pieces (pieces S)).2.foldl add wc) := by
  have hid : (pieces S).modifyHead (fun r => (List.range 0).map buff0 ++ r) = pieces S := by
    cases pieces S <;> simp [List.modifyHead]
  rw [count_words, count_words_loop_eq add S 0 buff0 wc (Nat.zero_le _)
    (fun i hi => absurd hi (Nat.not_lt_zero i)), hid]

theorem foldl_record_call (ws acc : List (List Nat)) :
    ws.foldl record_call acc = acc ++ ws := by
  induction ws generalizing acc with
  | nil => simp
  | cons w ws ih => simp [List.foldl_cons, ih, record_call]

theorem count_words_calls_eq_scan (S : List Nat) (buff0 : Nat → Nat) :
    count_words_calls S buff0 = scan_pieces (pieces S) := by
  rw [count_words_calls, count_words_eq_scan, foldl_record_call, List.nil_append]
/-! ## Facts about the scan of the pieces -/

theorem scan_pieces_of_le (L : List (List Nat)) (h : ∀ r ∈ L, r.length ≤ MAX_WORD_LEN) :
    scan_pieces L =
      (0, (L.filter (fun r => decide (2 ≤ r.length))).map (fun r => r.map tolower)) := by
  induction L with
  | nil => rfl
  | cons r rs ih =>
    rw [scan_pieces_cons_le r rs (h r (List.mem_cons_self _ _)),
      ih (fun x hx => h x (List.mem_cons_of_mem _ hx))]
    by_cases h2 : 2 ≤ r.length <;> simp [List.filter_cons, h2]

theorem scan_pieces_of_gt (L : List (List Nat)) (h : ∃ r ∈ L, MAX_WORD_LEN < r.length) :
    (scan_pieces L).1 = 1 := by
  induction L with
  | nil => simp at h
  | cons r rs ih =>
    by_cases hr : MAX_WORD_LEN < r.length
    · rw [scan_pieces_cons_gt r rs hr]
    · rw [scan_pieces_cons_le r rs (Nat.not_lt.mp hr)]
      obtain ⟨x, hx, hlen⟩ := h
      rcases List.mem_cons.mp hx with rfl | hx
      · exact absurd hlen hr
      · exact ih ⟨x, hx, hlen⟩

theorem scan_pieces_mem (L : List (List Nat)) :
    ∀ w ∈ (scan_pieces L).2,
      ∃ r ∈ L, w = r.map tolower ∧ 2 ≤ r.length ∧ r.length ≤ MAX_WORD_LEN := by
  induction L with
  | nil => simp [scan_pieces]
  | cons r rs ih =>
    intro w hw
    by_cases hr : MAX_WORD_LEN < r.length
    · rw [scan_pieces_cons_gt r rs hr] at hw
      simp at hw
    · rw [scan_pieces_cons_le r rs (Nat.not_lt.mp hr)] at hw
      by_cases h2 : 2 ≤ r.length
      · simp only [h2, if_true] at hw
        rcases List.mem_cons.mp hw with rfl | hw
        · exact ⟨r, List.mem_cons_self _ _, rfl, h2, Nat.not_lt.mp hr⟩
        · obtain ⟨x, hx, hrest⟩ := ih w hw
          exact ⟨x, List.mem_cons_of_mem _ hx, hrest⟩
      · simp only [h2, if_false] at hw
        obtain ⟨x, hx, hrest⟩ := ih w hw
        exact ⟨x, List.mem_cons_of_mem _ hx, hrest⟩

theorem pieces_length_le (S : List Nat) (k : Nat) (h : ∀ r ∈ maximal_runs S, r.length ≤ k) :
    ∀ r ∈ pieces S, r.length ≤ k := by
  intro r hr
  cases r with
  | nil => simp
  | cons a t =>
    apply h
    unfold maximal_runs
    rw [List.mem_filter]
    exact ⟨hr, by simp⟩

theorem mem_pieces_of_mem_maximal_runs (S : List Nat) (r : List Nat) (h : r ∈ maximal_runs S) :
    r ∈ pieces S := by
  unfold maximal_runs at h
  exact (List.mem_filter.mp h).1

/-- When no maximal run exceeds `MAX_WORD_LEN`, `count_words` succeeds and has passed to
`add_word` the case-folded qualifying runs, in order. -/
theorem count_words_calls_of_le (S : List Nat) (buff0 : Nat → Nat)
    (h : ∀ r ∈ maximal_runs S, r.length ≤ MAX_WORD_LEN) :
    count_words_calls S buff0 = (0, (qualifying_runs S).map (fun r => r.map tolower)) := by
  rw [count_words_calls_eq_scan, scan_pieces_of_le _ (pieces_length_le S _ h), qualifying_runs_eq]

/-- C2: for every finite byte stream `S` in which every maximal alphabetic run has at most 63
characters, `count_words` returns 0 and the words it passes to `add_word` are, in order of
occurrence, exactly the maximal alphabetic runs of `S` of length at least 2, each with its
uppercase letters replaced by lowercase ones and otherwise unchanged. -/
theorem count_words_records_runs (S : List Nat) (buff0 : Nat → Nat)
    (h : ∀ r ∈ maximal_runs S, r.length ≤ 63) :
    count_words_calls S buff0 = (0, (qualifying_runs S).map (fun r => r.map tolower)) :=
  count_words_calls_of_le S buff0 (fun r hr => Nat.le_trans (h r hr) (by decide))

/-- A 63-letter uppercase run followed by a separator and two more words is recorded whole. -/
theorem count_words_records_runs_witness :
    (∀ r ∈ maximal_runs (List.replicate 63 65 ++ bytes " to x Be"), r.length ≤ 63) ∧
    count_words_calls (List.replicate 63 65 ++ bytes " to x Be") (fun _ => 0) =
      (0, (qualifying_runs (List.replicate 63 65 ++ bytes " to x Be")).map
        (fun r => r.map tolower)) ∧
    (qualifying_runs (List.replicate 63 65 ++ bytes " to x Be")).map (fun r => r.map tolower) =
      [List.replicate 63 97, bytes "to", bytes "be"] :=
  ⟨by decide, count_words_records_runs _ _ (by decide), by decide⟩

/-- C4, as stated, fails: the stream of 64 letters `a` is one maximal run of exactly 64
characters ended by end-of-stream, and `count_words` returns 0 on it, not 1, having recorded the
run whole. -/
theorem run_of_64_counterexample :
    maximal_runs (List.replicate 64 97) = [List.replicate 64 97] ∧
    count_words_calls (List.replicate 64 97) (fun _ => 0) = (0, [List.replicate 64 97]) ∧
    (count_words_calls (List.replicate 64 97) (fun _ => 0)).1 ≠ 1 := by
  decide

/-- C4, amended: for every byte stream containing a maximal alphabetic run of more than 64
characters, `count_words` returns the overflow value 1; a run of exactly 64 characters does not
overflow: when no maximal run is longer than 64, `count_words` returns 0 and has recorded every
run of length at least 2 whole, case-folded. -/
theorem overflow_beyond_64 (S : List Nat) (buff0 : Nat → Nat) :
    ((∃ r ∈ maximal_runs S, MAX_WORD_LEN < r.length) → (count_words_calls S buff0).1 = 1) ∧
    ((∀ r ∈ maximal_runs S, r.length ≤ MAX_WORD_LEN) →
      count_words_calls S buff0 = (0, (qualifying_runs S).map (fun r => r.map tolower))) := by
  constructor
  · rintro ⟨r, hr, hlen⟩
    rw [count_words_calls_eq_scan]
    exact scan_pieces_of_gt _ ⟨r, mem_pieces_of_mem_maximal_runs S r hr, hlen⟩
  · exact count_words_calls_of_le S buff0

theorem overflow_beyond_64_witness :
    ((∃ r ∈ maximal_runs (List.replicate 65 97), MAX_WORD_LEN < r.length) ∧
      (count_words_calls (List.replicate 65 97) (fun _ => 0)).1 = 1) ∧
    ((∀ r ∈ maximal_runs (List.replicate 64 97), r.length ≤ MAX_WORD_LEN) ∧
      count_words_calls (List.replicate 64 97) (fun _ => 0) =
        (0, (qualifying_runs (List.replicate 64 97)).map (fun r => r.map tolower))) :=
  ⟨⟨by decide, (overflow_beyond_64 (List.replicate 65 97) (fun _ => 0)).1 (by decide)⟩,
   ⟨by decide, (overflow_beyond_64 (List.replicate 64 97) (fun _ => 0)).2 (by decide)⟩⟩
/-- C7: for every byte stream, whether `count_words` succeeds or fails on it, every word it
passes to `add_word` has length at least 2 and at most 64 and consists only of the lowercase
ASCII letters `a`..`z`; no token of length 1 reaches the ledger. -/
theorem recorded_words_shape (S : List Nat) (buff0 : Nat → Nat) :
    ∀ w ∈ (count_words_calls S buff0).2,
      2 ≤ w.length ∧ w.length ≤ 64 ∧ ∀ c ∈ w, 97 ≤ c ∧ c ≤ 122 := by
  intro w hw
  rw [count_words_calls_eq_scan] at hw
  obtain ⟨r, hr, rfl, h2, h64⟩ := scan_pieces_mem _ w hw
  refine ⟨by simpa using h2, by simpa using h64, ?_⟩
  intro c hc
  obtain ⟨x, hx, rfl⟩ := List.mem_map.mp hc
  exact tolower_lowercase x (pieces_alpha S r hr x hx)

/-- On a stream that overflows after two words and a one-letter token, the recorded word `hi`
has the stated shape. -/
theorem recorded_words_shape_witness :
    bytes "hi" ∈ (count_words_calls (bytes "Hi a YOU " ++ List.replicate 65 97) (fun _ => 0)).2 ∧
    (2 ≤ (bytes "hi").length ∧ (bytes "hi").length ≤ 64 ∧ ∀ c ∈ bytes "hi", 97 ≤ c ∧ c ≤ 122) :=
  ⟨by decide,
   recorded_words_shape (bytes "Hi a YOU " ++ List.replicate 65 97) (fun _ => 0) (bytes "hi")
     (by decide)⟩

/-! ## Case folding and trailing separators -/

theorem count_words_loop_toupper {σ : Type} (add : σ → List Nat → σ) (S : List Nat) :
    ∀ (len : Nat) (buff : Nat → Nat) (wc : σ),
      count_words_loop add (S.map toupper) len buff wc = count_words_loop add S len buff wc := by
  induction S with
  | nil => intro len buff wc; rfl
  | cons c S ih =>
    intro len buff wc
    simp only [List.map_cons, count_words_loop, isalpha_toupper, tolower_toupper, ih]

theorem num_words_loops_toupper (S : List Nat) :
    (∀ n, num_words_outer (S.map toupper) n = num_words_outer S n) ∧
    (∀ len n, num_words_inner (S.map toupper) len n = num_words_inner S len n) := by
  induction S with
  | nil => exact ⟨fun _ => rfl, fun _ _ => rfl⟩
  | cons c S ih =>
    constructor
    · intro n
      simp only [List.map_cons, num_words_outer, isalpha_toupper, ih.1, ih.2]
    · intro len n
      simp only [List.map_cons, num_words_inner, isalpha_toupper, ih.1, ih.2]

/-- C8: case-folding invariance.  With `U(S)` the stream in which each lowercase ASCII letter of
`S` is replaced by its uppercase form, `count_words` on `U(S)` returns the same status and passes
the same sequence of words to `add_word` as on `S`, hence yields the same ledger from the same
starting ledger whatever `add_word` is, and `num_words (U(S)) = num_words S`. -/
theorem case_folding_invariance (S : List Nat) (buff0 : Nat → Nat) :
    count_words_calls (S.map toupper) buff0 = count_words_calls S buff0 ∧
    (∀ (σ : Type) (add : σ → List Nat → σ) (wclist : σ),
      count_words add wclist (S.map toupper) buff0 = count_words add wclist S buff0) ∧
    num_words (S.map toupper) = num_words S :=
  ⟨count_words_loop_toupper record_call S 0 buff0 [],
   fun _ add wclist => count_words_loop_toupper add S 0 buff0 wclist,
   (num_words_loops_toupper S).1 0⟩

theorem count_words_loop_trailing {σ : Type} (add : σ → List Nat → σ) (b : Nat)
    (hb : isalpha b = false) (S : List Nat) :
    ∀ (len : Nat) (buff : Nat → Nat) (wc : σ),
      count_words_loop add (S ++ [b]) len buff wc = count_words_loop add S len buff wc := by
  induction S with
  | nil =>
    intro len buff wc
    simp [count_words_loop, hb]
  | cons c S ih =>
    intro len buff wc
    rw [List.cons_append, count_words_loop, count_words_loop]
    simp only [ih]

theorem num_words_loops_trailing (b : Nat) (hb : isalpha b = false) (S : List Nat) :
    (∀ n, num_words_outer (S ++ [b]) n = num_words_outer S n) ∧
    (∀ len n, num_words_inner (S ++ [b]) len n = num_words_inner S len n) := by
  induction S with
  | nil =>
    constructor
    · intro n; simp [num_words_outer, hb]
    · intro len n; simp [num_words_inner, num_words_outer, hb]
  | cons c S ih =>
    constructor
    · intro n
      rw [List.cons_append, num_words_outer, num_words_outer]
      simp only [ih.1, ih.2]
    · intro len n
      rw [List.cons_append, num_words_inner, num_words_inner]
      simp only [ih.1, ih.2]

/-- C9: a trailing word needs no separator before end-of-stream.  For every byte stream `S` and
every non-alphabetic byte `b`, `num_words (S ++ [b]) = num_words S`, and `count_words` on
`S ++ [b]` returns the same status and passes the same sequence of words to `add_word` as on
`S` (hence yields the same ledger, whatever `add_word` is). -/
theorem trailing_separator_irrelevant (S : List Nat) (b : Nat) (buff0 : Nat → Nat)
    (hb : isalpha b = false) :
    num_words (S ++ [b]) = num_words S ∧
    count_words_calls (S ++ [b]) buff0 = count_words_calls S buff0 ∧
    (∀ (σ : Type) (add : σ → List Nat → σ) (wclist : σ),
      count_words add wclist (S ++ [b]) buff0 = count_words add wclist S buff0) :=
  ⟨(num_words_loops_trailing b hb S).1 0,
   count_words_loop_trailing record_call b hb S 0 buff0 [],
   fun _ add wclist => count_words_loop_trailing add b hb S 0 buff0 wclist⟩

/-- The stream `the end` with and without a trailing newline. -/
theorem trailing_separator_irrelevant_witness :
    isalpha 10 = false ∧
    (num_words (bytes "the end" ++ [10]) = num_words (bytes "the end") ∧
     count_words_calls (bytes "the end" ++ [10]) (fun _ => 0) =
       count_words_calls (bytes "the end") (fun _ => 0) ∧
     (∀ (σ : Type) (add : σ → List Nat → σ) (wclist : σ),
       count_words add wclist (bytes "the end" ++ [10]) (fun _ => 0) =
         count_words add wclist (bytes "the end") (fun _ => 0))) :=
  ⟨by decide, trailing_separator_irrelevant (bytes "the end") 10 (fun _ => 0) (by decide)⟩
/-! ## The comparator `wordcount_less` and the ranking -/

theorem strcmp_neg_imp_lex (s1 : List Nat) :
    ∀ s2 : List Nat, strcmp s1 s2 < 0 → List.Lex (fun a b => a < b) s1 s2 := by
  induction s1 with
  | nil =>
    intro s2 h
    cases s2 with
    | nil => simp [strcmp] at h
    | cons b s2 => exact List.Lex.nil
  | cons a s1 ih =>
    intro s2 h
    cases s2 with
    | nil =>
      simp only [strcmp] at h
      omega
    | cons b s2 =>
      rw [strcmp] at h
      by_cases hab : a = b
      · rw [if_pos hab] at h
        subst hab
        exact List.Lex.cons (ih s2 h)
      · rw [if_neg hab] at h
        exact List.Lex.rel (by omega)

theorem lex_imp_strcmp_neg (s1 s2 : List Nat) (h0 : 0 ∉ s2)
    (h : List.Lex (fun a b => a < b) s1 s2) : strcmp s1 s2 < 0 := by
  induction h with
  | @nil b l =>
    have hb : b ≠ 0 := fun hb => h0 (hb ▸ List.mem_cons_self _ _)
    simp only [strcmp]
    omega
  | @cons a l1 l2 _ ih =>
    rw [strcmp, if_pos rfl]
    exact ih (fun hm => h0 (List.mem_cons_of_mem _ hm))
  | @rel a1 l1 a2 l2 hlt =>
    have hne : a1 ≠ a2 := Nat.ne_of_lt hlt
    rw [strcmp, if_neg hne]
    omega

theorem wordcount_less_eq_true (A B : WordCount) :
    wordcount_less A B = true ↔
      A.count < B.count ∨ (A.count = B.count ∧ strcmp A.word B.word < 0) := by
  unfold wordcount_less
  by_cases h1 : A.count < B.count
  · simp [h1]
  · by_cases h2 : A.count > B.count
    · have h3 : A.count ≠ B.count := by omega
      simp [h1, h2, h3]
    · have h3 : A.count = B.count := by omega
      simp [h1, h2, h3]

theorem wordcount_less_iff_lex (A B : WordCount) (hB : 0 ∉ B.word) :
    wordcount_less A B = true ↔
      A.count < B.count ∨
        (A.count = B.count ∧ List.Lex (fun a b => a < b) A.word B.word) := by
  rw [wordcount_less_eq_true]
  constructor
  · rintro (h | ⟨h, hs⟩)
    · exact Or.inl h
    · exact Or.inr ⟨h, strcmp_neg_imp_lex _ _ hs⟩
  · rintro (h | ⟨h, hs⟩)
    · exact Or.inl h
    · exact Or.inr ⟨h, lex_imp_strcmp_neg _ _ hB hs⟩

/-- C5: for all word entries `A` and `B`, `wordcount_less A B` is true if and only if
`A.count < B.count`, or `A.count = B.count` and `A.word` is strictly less than `B.word` in
byte-wise lexicographic order.  (The entries hold C strings: the word of `B` has no NUL byte;
nothing needs to be assumed of the word of `A`.) -/
theorem wordcount_less_spec (A B : WordCount) (hB : 0 ∉ B.word) :
    wordcount_less A B = true ↔
      A.count < B.count ∨
        (A.count = B.count ∧ List.Lex (fun a b => a < b) A.word B.word) :=
  wordcount_less_iff_lex A B hB

/-- The entries `cat:1` and `the:1`: equal counts, `cat` before `the`. -/
theorem wordcount_less_spec_witness :
    0 ∉ (WordCount.mk (bytes "the") 1).word ∧
    (wordcount_less (WordCount.mk (bytes "cat") 1) (WordCount.mk (bytes "the") 1) = true ↔
      (WordCount.mk (bytes "cat") 1).count < (WordCount.mk (bytes "the") 1).count ∨
        ((WordCount.mk (bytes "cat") 1).count = (WordCount.mk (bytes "the") 1).count ∧
          List.Lex (fun a b => a < b) (WordCount.mk (bytes "cat") 1).word
            (WordCount.mk (bytes "the") 1).word)) :=
  ⟨by decide,
   wordcount_less_spec (WordCount.mk (bytes "cat") 1) (WordCount.mk (bytes "the") 1) (by decide)⟩

theorem wordcount_less_trans (A B C : WordCount) (hC : 0 ∉ C.word)
    (hAB : wordcount_less A B = true) (hBC : wordcount_less B C = true) :
    wordcount_less A C = true := by
  have h1 := (wordcount_less_eq_true A B).mp hAB
  have h2 := (wordcount_less_eq_true B C).mp hBC
  rw [wordcount_less_iff_lex A C hC]
  rcases h1 with h1 | ⟨h1, s1⟩
  · rcases h2 with h2 | ⟨h2, _⟩
    · exact Or.inl (by omega)
    · exact Or.inl (by omega)
  · rcases h2 with h2 | ⟨h2, s2⟩
    · exact Or.inl (by omega)
    · refine Or.inr ⟨by omega, ?_⟩
      exact trans_of _ (strcmp_neg_imp_lex _ _ s1) (strcmp_neg_imp_lex _ _ s2)
theorem wordcount_less_total (A B : WordCount) (hA : 0 ∉ A.word) (hB : 0 ∉ B.word)
    (hne : A.word ≠ B.word) : wordcount_less A B = true ∨ wordcount_less B A = true := by
  rw [wordcount_less_iff_lex A B hB, wordcount_less_iff_lex B A hA]
  rcases lt_trichotomy A.count B.count with h | h | h
  · exact Or.inl (Or.inl h)
  · rcases trichotomous_of (List.Lex (fun a b : Nat => a < b)) A.word B.word with l | l | l
    · exact Or.inl (Or.inr ⟨h, l⟩)
    · exact absurd l hne
    · exact Or.inr (Or.inr ⟨h.symm, l⟩)
  · exact Or.inr (Or.inl h)

theorem wordcount_insert_perm (less : WordCount → WordCount → Bool) (wc : WordCount)
    (l : List WordCount) : (wordcount_insert less wc l).Perm (wc :: l) := by
  induction l with
  | nil => exact List.Perm.refl _
  | cons hd tl ih =>
    rw [wordcount_insert]
    by_cases h : less wc hd = true
    · rw [if_pos h]
    · rw [if_neg h]
      exact ((List.perm_cons hd).mpr ih).trans (List.Perm.swap wc hd tl)

theorem wordcount_sort_perm (less : WordCount → WordCount → Bool) (l : List WordCount) :
    (wordcount_sort less l).Perm l := by
  induction l with
  | nil => exact List.Perm.refl _
  | cons hd tl ih =>
    rw [wordcount_sort]
    exact (wordcount_insert_perm less hd _).trans ((List.perm_cons hd).mpr ih)

theorem wordcount_insert_sorted (wc : WordCount) (l : List WordCount)
    (hwc : 0 ∉ wc.word) (hl : ∀ x ∈ l, 0 ∉ x.word) (hne : ∀ x ∈ l, wc.word ≠ x.word)
    (hs : l.Pairwise (fun a b => wordcount_less a b = true)) :
    (wordcount_insert wordcount_less wc l).Pairwise (fun a b => wordcount_less a b = true) := by
  induction l with
  | nil => simp [wordcount_insert]
  | cons hd tl ih =>
    rw [List.pairwise_cons] at hs
    rw [wordcount_insert]
    by_cases h : wordcount_less wc hd = true
    · rw [if_pos h, List.pairwise_cons]
      refine ⟨?_, List.pairwise_cons.mpr hs⟩
      intro x hx
      rcases List.mem_cons.mp hx with rfl | hx
      · exact h
      · exact wordcount_less_trans wc hd x (hl x (List.mem_cons_of_mem _ hx)) h (hs.1 x hx)
    · rw [if_neg h, List.pairwise_cons]
      have hhd : wordcount_less hd wc = true := by
        rcases wordcount_less_total wc hd hwc (hl hd (List.mem_cons_self _ _))
          (hne hd (List.mem_cons_self _ _)) with h1 | h1
        · exact absurd h1 h
        · exact h1
      refine ⟨?_, ih (fun x hx => hl x (List.mem_cons_of_mem _ hx))
        (fun x hx => hne x (List.mem_cons_of_mem _ hx)) hs.2⟩
      intro x hx
      rcases List.mem_cons.mp ((wordcount_insert_perm wordcount_less wc tl).mem_iff.mp hx)
        with rfl | hx
      · exact hhd
      · exact hs.1 x hx

theorem wordcount_sort_sorted (l : List WordCount) (hl : ∀ x ∈ l, 0 ∉ x.word)
    (hnd : (l.map (fun wc => wc.word)).Nodup) :
    (wordcount_sort wordcount_less l).Pairwise (fun a b => wordcount_less a b = true) := by
  induction l with
  | nil => simp [wordcount_sort]
  | cons hd tl ih =>
    rw [List.map_cons, List.nodup_cons] at hnd
    rw [wordcount_sort]
    have hperm := wordcount_sort_perm wordcount_less tl
    apply wordcount_insert_sorted
    · exact hl hd (List.mem_cons_self _ _)
    · intro x hx
      exact hl x (List.mem_cons_of_mem _ (hperm.mem_iff.mp hx))
    · intro x hx heq
      exact hnd.1 (heq ▸ List.mem_map_of_mem _ (hperm.mem_iff.mp hx))
    · exact ih (fun x hx => hl x (List.mem_cons_of_mem _ hx)) hnd.2

/-- C6: for every ledger whose words are pairwise distinct (C strings, without NUL byte), the
ranked sequence `wordcount_sort ledger wordcount_less` is a permutation of the ledger ordered by
`wordcount_less`; it is non-decreasing in count, strictly increasing in byte-wise word order
within equal counts, and contains no duplicate word.  This covers the empty ledger, a single
entry and a ledger whose counts are all equal. -/
theorem ranked_sequence_ordered (ledger : List WordCount)
    (hwords : ∀ wc ∈ ledger, 0 ∉ wc.word)
    (hdistinct : (ledger.map (fun wc => wc.word)).Nodup) :
    (wordcount_sort wordcount_less ledger).Perm ledger ∧
    (wordcount_sort wordcount_less ledger).Pairwise (fun a b => wordcount_less a b = true) ∧
    (wordcount_sort wordcount_less ledger).Pairwise
      (fun a b => a.count ≤ b.count ∧
        (a.count = b.count → List.Lex (fun x y => x < y) a.word b.word)) ∧
    ((wordcount_sort wordcount_less ledger).map (fun wc => wc.word)).Nodup := by
  have hperm := wordcount_sort_perm wordcount_less ledger
  have hsorted := wordcount_sort_sorted ledger hwords hdistinct
  refine ⟨hperm, hsorted, ?_, ?_⟩
  · refine hsorted.imp ?_
    intro a b hab
    rcases (wordcount_less_eq_true a b).mp hab with h | ⟨h, hs⟩
    · exact ⟨by omega, fun he => by omega⟩
    · exact ⟨by omega, fun _ => strcmp_neg_imp_lex _ _ hs⟩
  · exact ((hperm.map (fun wc => wc.word)).nodup_iff).mpr hdistinct

/-- The ledger `the:2, cat:1, on:1, at:1`, inserted in that order, ranks as
`at:1, cat:1, on:1, the:2`. -/
theorem ranked_sequence_ordered_witness :
    ((∀ wc ∈ sample_ledger, 0 ∉ wc.word) ∧ (sample_ledger.map (fun wc => wc.word)).Nodup) ∧
    wordcount_sort wordcount_less sample_ledger =
      [WordCount.mk (bytes "at") 1, WordCount.mk (bytes "cat") 1,
        WordCount.mk (bytes "on") 1, WordCount.mk (bytes "the") 2] ∧
    ((wordcount_sort wordcount_less sample_ledger).Perm sample_ledger ∧
     (wordcount_sort wordcount_less sample_ledger).Pairwise
       (fun a b => wordcount_less a b = true) ∧
     (wordcount_sort wordcount_less sample_ledger).Pairwise
       (fun a b => a.count ≤ b.count ∧
         (a.count = b.count → List.Lex (fun x y => x < y) a.word b.word)) ∧
     ((wordcount_sort wordcount_less sample_ledger).map (fun wc => wc.word)).Nodup) :=
  ⟨⟨by decide, by decide⟩, by decide,
   ranked_sequence_ordered sample_ledger (by decide) (by decide)⟩

/-! ## Absent arguments -/

/-- C10 fails on the code: `count_words` never tests `wclist`.  With an absent (NULL) ledger
reference, whatever `add_word` does with it, `count_words` returns 0 on the empty stream and on
the stream `a b`, not 1; and on the stream `ab` it reads the bytes and calls `add_word` with the
absent reference and the word `ab`. -/
theorem count_words_null_ledger
    (add : Option (List WordCount) → List Nat → Option (List WordCount)) (buff0 : Nat → Nat) :
    count_words add none [] buff0 = (0, none) ∧
    count_words add none (bytes "a b") buff0 = (0, none) ∧
    count_words add none (bytes "ab") buff0 = (0, add none (bytes "ab")) := by
  refine ⟨rfl, ?_, ?_⟩
  · rw [count_words_eq_scan]
    have h : scan_pieces (pieces (bytes "a b")) = (0, []) := by decide
    rw [h]
    rfl
  · rw [count_words_eq_scan]
    have h : scan_pieces (pieces (bytes "ab")) = (0, [bytes "ab"]) := by decide
    rw [h]
    rfl
/-! ## Read failures and the driver -/

/-- C11 fails on the code: `fgetc` returns `EOF` on a read failure as at end-of-file, and
`num_words` never consults the stream's error indicator, so the test of line 68 cannot fire: on
a stream that ends in a read failure `num_words` returns the number of words counted so far,
the very result it returns on the same bytes ending in a normal end-of-stream. -/
theorem read_failure_not_signalled (S : List Nat) :
    num_words_result S true = (num_words S : Int) ∧
    num_words_result S true = num_words_result S false ∧
    num_words_result (bytes "ab cd") true = 2 := by
  refine ⟨?_, ?_, by decide⟩ <;> simp [num_words_result, fgetc_at_end]

theorem main_close_zeros (n : Nat) : main_close (List.replicate n 0) = 0 := by
  induction n with
  | zero => rfl
  | succ n ih => simp [List.replicate_succ, main_close, ih]

theorem main_frequency_ledger_calls (buff0 : Nat → Nat) (infiles : List (List Nat)) :
    ∀ calls : List (List Nat),
      main_frequency_ledger record_call buff0 infiles calls =
        calls ++ (infiles.map (fun infile => (count_words_calls infile buff0).2)).flatten := by
  induction infiles with
  | nil => intro calls; simp [main_frequency_ledger]
  | cons f fs ih =>
    intro calls
    rw [main_frequency_ledger, ih, count_words_eq_scan, foldl_record_call]
    simp [count_words_calls_eq_scan]

/-- C12, as stated, fails: on the two streams "65 letters `a`" and `to be`, `count_words`
returns the failure value 1 on the first, and `main` still goes on to the second, ranks and
prints `be:1, to:1`, and finishes with exit status 0. -/
theorem main_frequency_exit_counterexample :
    (count_words add_word [] (List.replicate 65 97) (fun _ => 0)).1 = 1 ∧
    main_frequency [List.replicate 65 97, bytes "to be"] (fun _ => 0) [0, 0] =
      ([WordCount.mk (bytes "be") 1, WordCount.mk (bytes "to") 1], 0) := by
  decide

/-- C12, amended: in frequency mode `main` does not look at the value `count_words` returns.
When `count_words` returns the failure value for a stream, the rest of that stream is dropped and
`main` goes on with the remaining streams: the words passed to `add_word` over the run are those
each stream passes, failed or not, in order; the exit status is that of closing the streams,
whatever `count_words` returned, hence 0 when every stream closes. -/
theorem main_frequency_exit_status (infiles : List (List Nat)) (buff0 : Nat → Nat) :
    main_frequency_ledger record_call buff0 infiles [] =
      (infiles.map (fun infile => (count_words_calls infile buff0).2)).flatten ∧
    (∀ close_results : List Int,
      (main_frequency infiles buff0 close_results).2 = main_close close_results) ∧
    (∀ n : Nat, (main_frequency infiles buff0 (List.replicate n 0)).2 = 0) :=
  ⟨by rw [main_frequency_ledger_calls, List.nil_append], fun _ => rfl,
   fun n => main_close_zeros n⟩

/-! ## The end-to-end scenarios -/

/-- C13, as stated, fails: on the stream `a I to be`, `num_words` does not return 0 and `main`
does not print a total of 0. -/
theorem scenario_two_counterexample :
    num_words scenario_two ≠ 0 ∧
    main_count_output [scenario_two] ≠ "The total number of words is: 0\n" := by
  decide

/-- C13, amended: on the single input stream `a I to be` in count mode the total number of words
is 2, the runs `to` and `be` having length 2: `num_words` returns 2 and `main` prints
`The total number of words is: 2`. -/
theorem scenario_two_total :
    qualifying_runs scenario_two = [bytes "to", bytes "be"] ∧
    num_words scenario_two = 2 ∧
    main_count_total [scenario_two] = 2 ∧
    main_count_output [scenario_two] = "The total number of words is: 2\n" := by
  decide

/-- C14: on the stream `the cat sat on the mat`, `count_words` succeeds and the words it passes
to `add_word` have multiplicities `the:2, cat:1, mat:1, on:1, sat:1` and nothing else (`at` is
never passed); ordered by `wordcount_less` these five entries rank as
`cat:1, mat:1, on:1, sat:1, the:2`. -/
theorem scenario_one_frequencies (buff0 : Nat → Nat) :
    count_words_calls scenario_one buff0 =
      (0, [bytes "the", bytes "cat", bytes "sat", bytes "on", bytes "the", bytes "mat"]) ∧
    (count_words_calls scenario_one buff0).2.count (bytes "the") = 2 ∧
    (count_words_calls scenario_one buff0).2.count (bytes "cat") = 1 ∧
    (count_words_calls scenario_one buff0).2.count (bytes "mat") = 1 ∧
    (count_words_calls scenario_one buff0).2.count (bytes "on") = 1 ∧
    (count_words_calls scenario_one buff0).2.count (bytes "sat") = 1 ∧
    (count_words_calls scenario_one buff0).2.count (bytes "at") = 0 ∧
    (entries_of_calls (count_words_calls scenario_one buff0).2).Perm
      [WordCount.mk (bytes "cat") 1, WordCount.mk (bytes "mat") 1, WordCount.mk (bytes "on") 1,
        WordCount.mk (bytes "sat") 1, WordCount.mk (bytes "the") 2] ∧
    List.Pairwise (fun a b => wordcount_less a b = true)
      [WordCount.mk (bytes "cat") 1, WordCount.mk (bytes "mat") 1, WordCount.mk (bytes "on") 1,
        WordCount.mk (bytes "sat") 1, WordCount.mk (bytes "the") 2] := by
  rw [count_words_calls_eq_scan]
  decide

/-- The modelled pipeline of `main` on the first scenario prints the same ranking. -/
theorem main_frequency_scenario_one :
    main_frequency [scenario_one] (fun _ => 0) [0] =
      ([WordCount.mk (bytes "cat") 1, WordCount.mk (bytes "mat") 1, WordCount.mk (bytes "on") 1,
        WordCount.mk (bytes "sat") 1, WordCount.mk (bytes "the") 2], 0) := by
  decide

/-- C15: running `count_words` on `Hello world` and then, on the same ledger, on
`hello WORLD world`, as `main` does for two input files in frequency mode, succeeds on both and
passes to `add_word` words with combined multiplicities `hello:2` and `world:3` and nothing
else; ordered by `wordcount_less`, `hello:2` ranks before `world:3`. -/
theorem scenario_three_frequencies (buff0 : Nat → Nat) :
    (count_words record_call [] (bytes "Hello world") buff0).1 = 0 ∧
    (count_words record_call (count_words record_call [] (bytes "Hello world") buff0).2
      (bytes "hello WORLD world") buff0).1 = 0 ∧
    main_frequency_ledger record_call buff0 scenario_three [] =
      [bytes "hello", bytes "world", bytes "hello", bytes "world", bytes "world"] ∧
    (main_frequency_ledger record_call buff0 scenario_three []).count (bytes "hello") = 2 ∧
    (main_frequency_ledger record_call buff0 scenario_three []).count (bytes "world") = 3 ∧
    (entries_of_calls (main_frequency_ledger record_call buff0 scenario_three [])).Perm
      [WordCount.mk (bytes "hello") 2, WordCount.mk (bytes "world") 3] ∧
    wordcount_less (WordCount.mk (bytes "hello") 2) (WordCount.mk (bytes "world") 3) = true ∧
    wordcount_less (WordCount.mk (bytes "world") 3) (WordCount.mk (bytes "hello") 2) = false := by
  simp only [scenario_three, main_frequency_ledger, count_words_eq_scan]
  decide

/-- The modelled pipeline of `main` on the third scenario prints `hello:2, world:3`. -/
theorem main_frequency_scenario_three :
    main_frequency scenario_three (fun _ => 0) [0, 0] =
      ([WordCount.mk (bytes "hello") 2, WordCount.mk (bytes "world") 3], 0) := by
  decide
/-! ## Buffer accesses of `count_words` -/

/-- The logged loop computes what `count_words_loop` computes. -/
theorem count_words_logged_loop_fst {σ : Type} (add : σ → List Nat → σ) (S : List Nat) :
    ∀ (len : Nat) (buff : Nat → Nat) (wc : σ),
      (count_words_logged_loop add S len buff wc).1 = count_words_loop add S len buff wc := by
  induction S with
  | nil => intro len buff wc; rfl
  | cons c S ih =>
    intro len buff wc
    rw [count_words_logged_loop, count_words_loop]
    by_cases hc : isalpha c = true
    · rw [if_pos hc, if_pos hc]
      by_cases hfull : len = MAX_WORD_LEN
      · rw [if_pos hfull, if_pos hfull]
      · rw [if_neg hfull, if_neg hfull]
        exact ih _ _ _
    · rw [if_neg hc, if_neg hc]
      exact ih _ _ _

theorem count_words_logged_fst {σ : Type} (add : σ → List Nat → σ) (wc : σ) (S : List Nat)
    (buff0 : Nat → Nat) :
    (count_words_logged add wc S buff0).1 = count_words add wc S buff0 :=
  count_words_logged_loop_fst add S 0 buff0 wc

theorem accesses_in_bounds_copy_access (len : Nat) (log : List BuffAccess)
    (hlen : len ≤ MAX_WORD_LEN) :
    accesses_in_bounds (copy_access len ++ log) len = accesses_in_bounds log len := by
  unfold copy_access
  split_ifs
  · simp [accesses_in_bounds, hlen]
  · rfl

theorem count_words_logged_loop_in_bounds {σ : Type} (add : σ → List Nat → σ) (S : List Nat) :
    ∀ (len : Nat) (buff : Nat → Nat) (wc : σ), len ≤ MAX_WORD_LEN →
      accesses_in_bounds (count_words_logged_loop add S len buff wc).2 len = true := by
  induction S with
  | nil =>
    intro len buff wc hlen
    rw [count_words_logged_loop]
    have := accesses_in_bounds_copy_access len [] hlen
    rw [List.append_nil] at this
    rw [this]
    rfl
  | cons c S ih =>
    intro len buff wc hlen
    rw [count_words_logged_loop]
    by_cases hc : isalpha c = true
    · rw [if_pos hc]
      by_cases hfull : len = MAX_WORD_LEN
      · rw [if_pos hfull]
        rfl
      · rw [if_neg hfull]
        have hlt : len < MAX_WORD_LEN := by omega
        simp only [accesses_in_bounds, hlt, decide_True, Bool.true_and]
        exact ih _ _ _ (by omega)
    · rw [if_neg hc]
      simp only [List.append_assoc]
      rw [accesses_in_bounds_copy_access len _ hlen]
      cases S with
      | nil =>
        simp [body_start, count_words_logged_loop, copy_access, accesses_in_bounds]
      | cons d S =>
        simp only [body_start, List.singleton_append, accesses_in_bounds]
        exact ih 0 _ _ (Nat.zero_le _)

theorem accesses_in_bounds_mem (log : List BuffAccess) :
    ∀ written : Nat, accesses_in_bounds log written = true →
      (∀ i, BuffAccess.write i ∈ log → i < MAX_WORD_LEN) ∧
      (∀ n, BuffAccess.copy n ∈ log → n ≤ MAX_WORD_LEN) := by
  induction log with
  | nil => intro _ _; simp
  | cons e log ih =>
    intro written h
    cases e with
    | new_run =>
      simp only [accesses_in_bounds] at h
      obtain ⟨h1, h2⟩ := ih 0 h
      exact ⟨fun i hi => h1 i (by simpa using hi), fun n hn => h2 n (by simpa using hn)⟩
    | write index =>
      simp only [accesses_in_bounds, Bool.and_eq_true, decide_eq_true_eq] at h
      obtain ⟨h1, h2⟩ := ih (written + 1) h.2
      constructor
      · intro i hi
        rcases List.mem_cons.mp hi with heq | hi
        · cases heq; exact h.1
        · exact h1 i hi
      · intro n hn
        exact h2 n (by simpa using hn)
    | copy m =>
      simp only [accesses_in_bounds, Bool.and_eq_true, decide_eq_true_eq] at h
      obtain ⟨h1, h2⟩ := ih written h.2
      constructor
      · intro i hi
        exact h1 i (by simpa using hi)
      · intro n hn
        rcases List.mem_cons.mp hn with heq | hn
        · cases heq; omega
        · exact h2 n hn

theorem buffer_accesses_ok (S : List Nat) (buff0 : Nat → Nat) :
    accesses_in_bounds (buffer_accesses S buff0) 0 = true := by
  unfold buffer_accesses count_words_logged
  cases S with
  | nil => rfl
  | cons c S =>
    simp only [body_start, List.singleton_append, accesses_in_bounds]
    exact count_words_logged_loop_in_bounds record_call (c :: S) 0 buff0 [] (Nat.zero_le _)

/-- C16: for every byte stream, `count_words` never accesses its 64-byte transient word buffer
out of bounds: every write `buff[len]` happens with `0 <= len <= 63`, and when a word is copied
out only indices below the number of bytes written for the current run, itself at most 64, are
read.  (The logged function returns what `count_words` returns.) -/
theorem buffer_never_overrun (S : List Nat) (buff0 : Nat → Nat) :
    (count_words_logged record_call [] S buff0).1 = count_words_calls S buff0 ∧
    (∀ i, BuffAccess.write i ∈ buffer_accesses S buff0 → 0 ≤ i ∧ i ≤ 63) ∧
    (∀ n, BuffAccess.copy n ∈ buffer_accesses S buff0 → n ≤ 64) ∧
    accesses_in_bounds (buffer_accesses S buff0) 0 = true := by
  have hok := buffer_accesses_ok S buff0
  obtain ⟨h1, h2⟩ := accesses_in_bounds_mem _ 0 hok
  refine ⟨count_words_logged_fst record_call [] S buff0, ?_, h2, hok⟩
  intro i hi
  have := h1 i hi
  have hmax : MAX_WORD_LEN = 64 := rfl
  omega

/-- On 64 letters followed by a separator and 65 letters, the last write of the first run is at
index 63 and the copy reads 64 bytes. -/
theorem buffer_never_overrun_witness :
    (BuffAccess.write 63 ∈
        buffer_accesses (List.replicate 64 97 ++ 32 :: List.replicate 65 98) (fun _ => 0) ∧
      (0 ≤ 63 ∧ 63 ≤ 63)) ∧
    (BuffAccess.copy 64 ∈
        buffer_accesses (List.replicate 64 97 ++ 32 :: List.replicate 65 98) (fun _ => 0) ∧
      64 ≤ 64) :=
  ⟨⟨by decide,
    (buffer_never_overrun (List.replicate 64 97 ++ 32 :: List.replicate 65 98)
      (fun _ => 0)).2.1 63 (by decide)⟩,
   ⟨by decide,
    (buffer_never_overrun (List.replicate 64 97 ++ 32 :: List.replicate 65 98)
      (fun _ => 0)).2.2.1 64 (by decide)⟩⟩
/-! ## The comparator is a strict total order on a ledger -/

theorem strcmp_self (s : List Nat) : strcmp s s = 0 := by
  induction s with
  | nil => rfl
  | cons a s ih => rw [strcmp, if_pos rfl, ih]

theorem strcmp_antisymm (s1 : List Nat) : ∀ s2 : List Nat, strcmp s2 s1 = - strcmp s1 s2 := by
  induction s1 with
  | nil =>
    intro s2
    cases s2 with
    | nil => rfl
    | cons b s2 => simp [strcmp]
  | cons a s1 ih =>
    intro s2
    cases s2 with
    | nil => simp [strcmp]
    | cons b s2 =>
      rw [strcmp, strcmp]
      by_cases hab : a = b
      · rw [if_pos hab, if_pos hab.symm]
        exact ih s2
      · rw [if_neg hab, if_neg (Ne.symm hab)]
        omega

theorem wordcount_less_irrefl (A : WordCount) : wordcount_less A A = false := by
  cases h : wordcount_less A A with
  | false => rfl
  | true =>
    rcases (wordcount_less_eq_true A A).mp h with h1 | ⟨_, h2⟩
    · omega
    · rw [strcmp_self] at h2
      omega

theorem wordcount_less_asymm (A B : WordCount) (h : wordcount_less A B = true) :
    wordcount_less B A = false := by
  cases h2 : wordcount_less B A with
  | false => rfl
  | true =>
    rcases (wordcount_less_eq_true A B).mp h with h1 | ⟨h1, s1⟩ <;>
    rcases (wordcount_less_eq_true B A).mp h2 with h3 | ⟨h3, s3⟩
    · omega
    · omega
    · omega
    · rw [strcmp_antisymm] at s3
      omega

theorem wordcount_less_exactly_one (A B : WordCount) (hA : 0 ∉ A.word) (hB : 0 ∉ B.word)
    (hne : A.word ≠ B.word) :
    (wordcount_less A B = true ∧ wordcount_less B A = false) ∨
    (wordcount_less A B = false ∧ wordcount_less B A = true) := by
  rcases wordcount_less_total A B hA hB hne with h | h
  · exact Or.inl ⟨h, wordcount_less_asymm A B h⟩
  · exact Or.inr ⟨wordcount_less_asymm B A h, h⟩

/-- Two arrangements of the same entries that are both ordered by `wordcount_less` coincide. -/
theorem ranked_unique (l1 l2 : List WordCount) (hperm : l1.Perm l2)
    (h1 : l1.Pairwise (fun a b => wordcount_less a b = true))
    (h2 : l2.Pairwise (fun a b => wordcount_less a b = true)) : l1 = l2 := by
  haveI : IsAntisymm WordCount (fun a b => wordcount_less a b = true) :=
    ⟨fun a b hab hba => by
      have := wordcount_less_asymm a b hab
      rw [hba] at this
      exact absurd this (by decide)⟩
  exact List.eq_of_perm_of_sorted hperm h1 h2

theorem word_ne_of_ne (ledger : List WordCount)
    (hdistinct : (ledger.map (fun wc => wc.word)).Nodup) (A B : WordCount)
    (hA : A ∈ ledger) (hB : B ∈ ledger) (hne : A ≠ B) : A.word ≠ B.word :=
  fun h => hne (List.inj_on_of_nodup_map hdistinct hA hB h)

/-- The modelled `wordcount_sort` does not depend on the order of insertion. -/
theorem wordcount_sort_insertion_order (ledger1 ledger2 : List WordCount)
    (hperm : ledger1.Perm ledger2) (hwords : ∀ wc ∈ ledger1, 0 ∉ wc.word)
    (hdistinct : (ledger1.map (fun wc => wc.word)).Nodup) :
    wordcount_sort wordcount_less ledger1 = wordcount_sort wordcount_less ledger2 := by
  have hwords2 : ∀ wc ∈ ledger2, 0 ∉ wc.word := fun wc h => hwords wc (hperm.mem_iff.mpr h)
  have hdistinct2 : (ledger2.map (fun wc => wc.word)).Nodup :=
    ((hperm.map (fun wc => wc.word)).nodup_iff).mp hdistinct
  exact ranked_unique _ _
    (((wordcount_sort_perm wordcount_less ledger1).trans hperm).trans
      (wordcount_sort_perm wordcount_less ledger2).symm)
    (wordcount_sort_sorted ledger1 hwords hdistinct)
    (wordcount_sort_sorted ledger2 hwords2 hdistinct2)

/-- C17: `wordcount_less` is a strict total order on the entries of any ledger with pairwise
distinct words (C strings, without NUL byte): it is irreflexive and transitive on all entries,
for any two entries with different words (in particular any two distinct entries of such a
ledger) exactly one of `wordcount_less A B` and `wordcount_less B A` holds; consequently the
ranked order of such a ledger is unique: two arrangements, ordered by `wordcount_less`, of ledgers
holding the same entries in whatever insertion order are equal. -/
theorem wordcount_less_strict_order :
    (∀ A : WordCount, wordcount_less A A = false) ∧
    (∀ A B C : WordCount, 0 ∉ C.word → wordcount_less A B = true →
      wordcount_less B C = true → wordcount_less A C = true) ∧
    (∀ A B : WordCount, 0 ∉ A.word → 0 ∉ B.word → A.word ≠ B.word →
      ((wordcount_less A B = true ∧ wordcount_less B A = false) ∨
       (wordcount_less A B = false ∧ wordcount_less B A = true))) ∧
    (∀ ledger : List WordCount, (∀ wc ∈ ledger, 0 ∉ wc.word) →
      (ledger.map (fun wc => wc.word)).Nodup →
      ∀ A ∈ ledger, ∀ B ∈ ledger, A ≠ B →
        ((wordcount_less A B = true ∧ wordcount_less B A = false) ∨
         (wordcount_less A B = false ∧ wordcount_less B A = true))) ∧
    (∀ ledger1 ledger2 ranked1 ranked2 : List WordCount, ledger1.Perm ledger2 →
      ranked1.Perm ledger1 → ranked2.Perm ledger2 →
      ranked1.Pairwise (fun a b => wordcount_less a b = true) →
      ranked2.Pairwise (fun a b => wordcount_less a b = true) → ranked1 = ranked2) := by
  refine ⟨wordcount_less_irrefl, ?_, wordcount_less_exactly_one, ?_, ?_⟩
  · intro A B C hC hAB hBC
    exact wordcount_less_trans A B C hC hAB hBC
  · intro ledger hwords hdistinct A hA B hB hne
    exact wordcount_less_exactly_one A B (hwords A hA) (hwords B hB)
      (word_ne_of_ne ledger hdistinct A B hA hB hne)
  · intro ledger1 ledger2 ranked1 ranked2 hperm hp1 hp2 hs1 hs2
    exact ranked_unique ranked1 ranked2 ((hp1.trans hperm).trans hp2.symm) hs1 hs2

/-- The entries `on:1`, `cat:1`, `the:2`: transitivity along `cat:1`, `on:1`, `the:2`, exactly
one direction between `on:1` and `cat:1`, and the one ranking of the ledger inserted as
`the, cat, on` or as `on, the, cat`. -/
theorem wordcount_less_strict_order_witness :
    wordcount_less (WordCount.mk (bytes "cat") 1) (WordCount.mk (bytes "the") 2) = true ∧
    ((wordcount_less (WordCount.mk (bytes "on") 1) (WordCount.mk (bytes "cat") 1) = true ∧
        wordcount_less (WordCount.mk (bytes "cat") 1) (WordCount.mk (bytes "on") 1) = false) ∨
      (wordcount_less (WordCount.mk (bytes "on") 1) (WordCount.mk (bytes "cat") 1) = false ∧
        wordcount_less (WordCount.mk (bytes "cat") 1) (WordCount.mk (bytes "on") 1) = true)) ∧
    wordcount_sort wordcount_less
        [WordCount.mk (bytes "the") 2, WordCount.mk (bytes "cat") 1, WordCount.mk (bytes "on") 1] =
      wordcount_sort wordcount_less
        [WordCount.mk (bytes "on") 1, WordCount.mk (bytes "the") 2, WordCount.mk (bytes "cat") 1] :=
  ⟨wordcount_less_strict_order.2.1 (WordCount.mk (bytes "cat") 1) (WordCount.mk (bytes "on") 1)
      (WordCount.mk (bytes "the") 2) (by decide) (by decide) (by decide),
   wordcount_less_strict_order.2.2.1 (WordCount.mk (bytes "on") 1) (WordCount.mk (bytes "cat") 1)
      (by decide) (by decide) (by decide),
   wordcount_less_strict_order.2.2.2.2
      [WordCount.mk (bytes "the") 2, WordCount.mk (bytes "cat") 1, WordCount.mk (bytes "on") 1]
      [WordCount.mk (bytes "on") 1, WordCount.mk (bytes "the") 2, WordCount.mk (bytes "cat") 1]
      _ _ (by decide)
      (wordcount_sort_perm wordcount_less _) (wordcount_sort_perm wordcount_less _)
      (by decide) (by decide)⟩
/-! ## The exact failure condition and the comparison with `num_words` -/

theorem scan_pieces_status (L : List (List Nat)) :
    (scan_pieces L).1 = if ∃ r ∈ L, MAX_WORD_LEN < r.length then 1 else 0 := by
  by_cases h : ∃ r ∈ L, MAX_WORD_LEN < r.length
  · rw [if_pos h, scan_pieces_of_gt L h]
  · rw [if_neg h, scan_pieces_of_le L (fun r hr => Nat.not_lt.mp (fun hlt => h ⟨r, hr, hlt⟩))]

theorem scan_pieces_words (L : List (List Nat)) :
    (scan_pieces L).2 =
      ((L.takeWhile (fun r => decide (r.length ≤ MAX_WORD_LEN))).filter
        (fun r => decide (2 ≤ r.length))).map (fun r => r.map tolower) := by
  induction L with
  | nil => rfl
  | cons r rs ih =>
    by_cases hr : MAX_WORD_LEN < r.length
    · have hnot : ¬ r.length ≤ MAX_WORD_LEN := Nat.not_le.mpr hr
      rw [scan_pieces_cons_gt r rs hr]
      simp [List.takeWhile_cons, hnot]
    · have hle : r.length ≤ MAX_WORD_LEN := Nat.not_lt.mp hr
      rw [scan_pieces_cons_le r rs hle, ih]
      by_cases h2 : 2 ≤ r.length <;> simp [List.takeWhile_cons, List.filter_cons, hle, h2]

theorem filter_takeWhile_comm (p q : List Nat → Bool) (L : List (List Nat))
    (h : ∀ r, q r = false → p r = true) :
    (L.takeWhile p).filter q = ((L.filter q).takeWhile p).filter q := by
  induction L with
  | nil => rfl
  | cons r rs ih =>
    by_cases hq : q r = true
    · by_cases hp : p r = true
      · simp [List.takeWhile_cons, List.filter_cons, hq, hp, ih]
      · simp [List.takeWhile_cons, List.filter_cons, hq, hp]
    · have hq2 : q r = false := by simpa using hq
      have hp : p r = true := h r hq2
      simp [List.takeWhile_cons, List.filter_cons, hq2, hp, ih]

/-- The words of the scan, in terms of the maximal runs: the case-folded runs of length at least
2 that come before the first run longer than `MAX_WORD_LEN`. -/
theorem scan_pieces_words_runs (S : List Nat) :
    (scan_pieces (pieces S)).2 =
      (((maximal_runs S).takeWhile (fun r => decide (r.length ≤ MAX_WORD_LEN))).filter
        (fun r => decide (2 ≤ r.length))).map (fun r => r.map tolower) := by
  rw [scan_pieces_words]
  congr 1
  unfold maximal_runs
  have h1 := filter_takeWhile_comm (fun r => decide (r.length ≤ MAX_WORD_LEN))
    (fun r => !r.isEmpty) (pieces S) (by
      intro r hr
      cases r with
      | nil => simp
      | cons a t => simp at hr)
  have hfilter : ∀ M : List (List Nat),
      M.filter (fun r => decide (2 ≤ r.length)) =
        (M.filter (fun r => !r.isEmpty)).filter (fun r => decide (2 ≤ r.length)) := by
    intro M
    rw [List.filter_filter]
    congr 1
    funext r
    cases r with
    | nil => simp
    | cons a t => simp
  rw [hfilter (List.takeWhile _ (pieces S)), h1, ← hfilter]

theorem exists_long_run_iff (S : List Nat) :
    (∃ r ∈ pieces S, MAX_WORD_LEN < r.length) ↔ ∃ r ∈ maximal_runs S, MAX_WORD_LEN < r.length := by
  constructor
  · rintro ⟨r, hr, hlen⟩
    refine ⟨r, ?_, hlen⟩
    unfold maximal_runs
    rw [List.mem_filter]
    refine ⟨hr, ?_⟩
    cases r with
    | nil => simp [MAX_WORD_LEN] at hlen
    | cons a t => simp
  · rintro ⟨r, hr, hlen⟩
    exact ⟨r, mem_pieces_of_mem_maximal_runs S r hr, hlen⟩

/-- C18: exact failure condition of `count_words` (arguments present, allocation succeeding).
For every byte stream `S`, `count_words` returns 1 if and only if `S` contains a maximal
alphabetic run of more than 64 characters, and otherwise returns 0; in either case, and so when
it returns 1, the words it has passed to `add_word` are exactly the lowercased maximal runs of
length at least 2 that end before the first run longer than 64, in order: nothing from that run
or after it is recorded, and earlier insertions stay. -/
theorem exact_failure_condition (S : List Nat) (buff0 : Nat → Nat) :
    ((count_words_calls S buff0).1 = 1 ↔ ∃ r ∈ maximal_runs S, 64 < r.length) ∧
    ((count_words_calls S buff0).1 = 0 ↔ ¬ ∃ r ∈ maximal_runs S, 64 < r.length) ∧
    (count_words_calls S buff0).2 =
      (((maximal_runs S).takeWhile (fun r => decide (r.length ≤ 64))).filter
        (fun r => decide (2 ≤ r.length))).map (fun r => r.map tolower) := by
  have hst := scan_pieces_status (pieces S)
  rw [count_words_calls_eq_scan]
  refine ⟨?_, ?_, scan_pieces_words_runs S⟩
  · rw [← show MAX_WORD_LEN = 64 from rfl, ← exists_long_run_iff, hst]
    split_ifs with h <;> simp [h]
  · rw [← show MAX_WORD_LEN = 64 from rfl, ← exists_long_run_iff, hst]
    split_ifs with h <;> simp [h]

/-- On `Hi a YOU`, a separator, 65 letters and `more`: status 1, and `hi`, `you` recorded. -/
theorem exact_failure_condition_witness :
    (count_words_calls (bytes "Hi a YOU " ++ List.replicate 65 97 ++ bytes " more")
      (fun _ => 0)).1 = 1 ∧
    (count_words_calls (bytes "Hi a YOU " ++ List.replicate 65 97 ++ bytes " more")
      (fun _ => 0)).2 = [bytes "hi", bytes "you"] :=
  ⟨(exact_failure_condition (bytes "Hi a YOU " ++ List.replicate 65 97 ++ bytes " more")
      (fun _ => 0)).1.mpr (by decide),
   (exact_failure_condition (bytes "Hi a YOU " ++ List.replicate 65 97 ++ bytes " more")
      (fun _ => 0)).2.2.trans (by decide)⟩

theorem scan_pieces_length (L : List (List Nat)) :
    (scan_pieces L).2.length ≤ (L.filter (fun r => decide (2 ≤ r.length))).length ∧
    ((scan_pieces L).2.length = (L.filter (fun r => decide (2 ≤ r.length))).length ↔
      (scan_pieces L).1 = 0) := by
  induction L with
  | nil => simp [scan_pieces]
  | cons r rs ih =>
    by_cases hr : MAX_WORD_LEN < r.length
    · have h2 : 2 ≤ r.length := by
        have : MAX_WORD_LEN = 64 := rfl
        omega
      rw [scan_pieces_cons_gt r rs hr]
      simp [List.filter_cons, h2]
    · rw [scan_pieces_cons_le r rs (Nat.not_lt.mp hr)]
      obtain ⟨ih1, ih2⟩ := ih
      by_cases h2 : 2 ≤ r.length
      · simp only [List.filter_cons, h2, decide_True, if_true, List.length_cons]
        constructor
        · omega
        · rw [← ih2]; omega
      · simp only [List.filter_cons, h2, decide_False, if_false]
        exact ⟨ih1, ih2⟩

theorem count_words_calls_replicate_letter (n : Nat) (h : MAX_WORD_LEN < n)
    (buff0 : Nat → Nat) : count_words_calls (List.replicate n 97) buff0 = (1, []) := by
  rw [count_words_calls_eq_scan, pieces_replicate_letter]
  exact scan_pieces_cons_gt _ _ (by rw [List.length_replicate]; exact h)

/-- C19, as stated, fails: on the stream of `2^31` letters `a`, `count_words` returns 1 having
passed no word to `add_word`, and `num_words` returns 0 (its `int len` has wrapped around): the
two numbers are equal although `count_words` did not return 0. -/
theorem calls_equal_on_failure_counterexample :
    (count_words_calls (List.replicate 2147483648 97) (fun _ => 0)).2.length =
      num_words (List.replicate 2147483648 97) ∧
    (count_words_calls (List.replicate 2147483648 97) (fun _ => 0)).1 ≠ 0 := by
  have h1 : count_words_calls (List.replicate 2147483648 97) (fun _ => 0) = (1, []) :=
    count_words_calls_replicate_letter _ (by decide) _
  have h2 : num_words (List.replicate 2147483648 97) = 0 := by
    rw [num_words_replicate_letter]
    decide
  rw [h1, h2]
  exact ⟨rfl, by decide⟩

/-- C19, amended: for every byte stream `S` of fewer than `2^31` bytes, the number of words
`count_words` passes to `add_word` on `S` is at most `num_words S`, with equality if and only if
`count_words` returns 0 on `S`. -/
theorem calls_at_most_num_words (S : List Nat) (buff0 : Nat → Nat)
    (h : S.length < 2147483648) :
    (count_words_calls S buff0).2.length ≤ num_words S ∧
    ((count_words_calls S buff0).2.length = num_words S ↔ (count_words_calls S buff0).1 = 0) := by
  rw [count_words_calls_eq_scan, num_words_of_short S
    (fun r hr => Nat.lt_of_le_of_lt (pieces_length_le_length S r hr) h)]
  exact scan_pieces_length (pieces S)

set_option maxRecDepth 4096 in
/-- On `Hi a YOU`, a separator and 65 letters, two words are passed and three are counted,
`count_words` returning 1. -/
theorem calls_at_most_num_words_witness :
    (bytes "Hi a YOU " ++ List.replicate 65 97).length < 2147483648 ∧
    ((count_words_calls (bytes "Hi a YOU " ++ List.replicate 65 97) (fun _ => 0)).2.length ≤
        num_words (bytes "Hi a YOU " ++ List.replicate 65 97) ∧
      ((count_words_calls (bytes "Hi a YOU " ++ List.replicate 65 97)
            (fun _ => 0)).2.length =
          num_words (bytes "Hi a YOU " ++ List.replicate 65 97) ↔
        (count_words_calls (bytes "Hi a YOU " ++ List.replicate 65 97) (fun _ => 0)).1 = 0)) ∧
    (count_words_calls (bytes "Hi a YOU " ++ List.replicate 65 97) (fun _ => 0)).2.length = 2 ∧
    num_words (bytes "Hi a YOU " ++ List.replicate 65 97) = 3 :=
  ⟨by decide,
   calls_at_most_num_words (bytes "Hi a YOU " ++ List.replicate 65 97) (fun _ => 0) (by decide),
   by decide, by decide⟩

/-! ## `num_words` across a separator -/

theorem pieces_append_separator (S1 S2 : List Nat) (b : Nat) (hb : isalpha b = false) :
    pieces (S1 ++ b :: S2) = pieces S1 ++ pieces S2 := by
  induction S1 with
  | nil => simp [pieces_cons, hb, pieces_nil]
  | cons c S1 ih =>
    rw [List.cons_append, pieces_cons, pieces_cons, ih]
    by_cases hc : isalpha c = true
    · rw [if_pos hc, if_pos hc]
      cases hp : pieces S1 with
      | nil => exact absurd hp (pieces_ne_nil S1)
      | cons r0 rs => rfl
    · rw [if_neg hc, if_neg hc]
      rfl

theorem num_words_append_separator (S1 S2 : List Nat) (b : Nat) (hb : isalpha b = false) :
    num_words (S1 ++ b :: S2) = num_words S1 + num_words S2 := by
  simp only [num_words, (num_words_loops _).1 0, Nat.zero_add,
    pieces_append_separator S1 S2 b hb, List.filter_append, List.length_append]

theorem foldl_num_words (files : List (List Nat)) (n : Nat) :
    files.foldl (fun total_words infile => total_words + num_words infile) n =
      n + main_count_total files := by
  unfold main_count_total
  induction files generalizing n with
  | nil => simp
  | cons f fs ih =>
    rw [List.foldl_cons, List.foldl_cons, ih, ih (0 + num_words f)]
    omega

theorem main_count_total_cons (f : List Nat) (fs : List (List Nat)) :
    main_count_total (f :: fs) = num_words f + main_count_total fs := by
  rw [main_count_total, List.foldl_cons, foldl_num_words]
  omega

theorem main_count_total_join (b : Nat) (hb : isalpha b = false) (files : List (List Nat)) :
    main_count_total files = num_words (List.intercalate [b] files) := by
  induction files with
  | nil => rfl
  | cons f fs ih =>
    cases fs with
    | nil => simp [main_count_total, List.intercalate, List.intersperse]
    | cons g gs =>
      rw [main_count_total_cons, ih]
      have hjoin : List.intercalate [b] (f :: g :: gs) =
          f ++ b :: List.intercalate [b] (g :: gs) := by
        simp [List.intercalate, List.intersperse]
      rw [hjoin, num_words_append_separator f _ b hb]

/-- C20: `num_words` is additive across a separator.  For all byte streams `S1`, `S2` and every
non-alphabetic byte `b`, `num_words (S1 ++ [b] ++ S2) = num_words S1 + num_words S2`; so the
per-stream running sum `main` computes in count mode equals the count of the streams joined by
separators. -/
theorem num_words_additive (S1 S2 : List Nat) (b : Nat) (hb : isalpha b = false) :
    num_words (S1 ++ [b] ++ S2) = num_words S1 + num_words S2 ∧
    main_count_total [S1, S2] = num_words (S1 ++ [b] ++ S2) ∧
    (∀ infiles : List (List Nat),
      main_count_total infiles = num_words (List.intercalate [b] infiles)) := by
  have h := num_words_append_separator S1 S2 b hb
  have happ : S1 ++ [b] ++ S2 = S1 ++ b :: S2 := by simp
  rw [happ]
  refine ⟨h, ?_, main_count_total_join b hb⟩
  rw [h, main_count_total_cons, main_count_total_cons]
  rfl

/-- The streams `the cat` and `a dog` joined by a newline. -/
theorem num_words_additive_witness :
    isalpha 10 = false ∧
    (num_words (bytes "the cat" ++ [10] ++ bytes "a dog") =
        num_words (bytes "the cat") + num_words (bytes "a dog") ∧
      main_count_total [bytes "the cat", bytes "a dog"] =
        num_words (bytes "the cat" ++ [10] ++ bytes "a dog") ∧
      (∀ infiles : List (List Nat),
        main_count_total infiles = num_words (List.intercalate [10] infiles))) :=
  ⟨by decide, num_words_additive (bytes "the cat") (bytes "a dog") 10 (by decide)⟩

end Words
